import Mathlib

/-!
Verification of the Systematic-Mapping screening pipeline
(`src/Screening/Python/{Unique,Keywords,Add_type,Screening,clean_ISSN}.py`).

Strings are embedded as `List Char`; a Python index position `i` into a
string `s` corresponds to the suffix `s.drop i`, so "position = input
length" corresponds to the empty suffix.  Python standard-library
collaborators (`html.unescape`, `urllib.parse.unquote`,
`unicodedata.normalize('NFKD', ·)`, `str.lower`) are modelled by
executable functions whose character tables are explicit finite lists
covering a representative subset of Unicode; the scanning algorithms
themselves are faithful to the library semantics the code relies on.
-/

set_option maxRecDepth 10000

/-- Convert a string literal to the `List Char` representation used throughout. -/
def cs (s : String) : List Char := s.data

/-- The left brace character, written via its code to keep source text plain. -/
def lb : Char := '\x7b'

/-- The right brace character. -/
def rb : Char := '\x7d'

/-- Python `\s` / `str.isspace` (representative subset of Unicode whitespace). -/
def isPySpace (c : Char) : Bool :=
  decide (c = ' ' ∨ c = '\t' ∨ c = '\n' ∨ c = '\r' ∨ c = '\x0b' ∨ c = '\x0c' ∨
          c = '\x85' ∨ c = '\xa0')

/-- ASCII-only `\s`, as compiled under Python's `re.A` flag. -/
def isAsciiSpace (c : Char) : Bool :=
  decide (c = ' ' ∨ c = '\t' ∨ c = '\n' ∨ c = '\r' ∨ c = '\x0b' ∨ c = '\x0c')

/-- ASCII letter, the `[A-Za-z]` character class. -/
def isAsciiLetter (c : Char) : Bool :=
  decide (('a' ≤ c ∧ c ≤ 'z') ∨ ('A' ≤ c ∧ c ≤ 'Z'))

/-- ASCII digit, the `\d` character class (ASCII subset of Python's Unicode `\d`). -/
def isAsciiDigit (c : Char) : Bool := decide ('0' ≤ c ∧ c ≤ '9')

/-- Python `\w` (ASCII subset of Python's Unicode word class). -/
def isWordChar (c : Char) : Bool := isAsciiLetter c || isAsciiDigit c || decide (c = '_')

/-- Python `str.strip()`: drop leading and trailing whitespace. -/
def pyStrip (s : List Char) : List Char :=
  ((s.dropWhile isPySpace).reverse.dropWhile isPySpace).reverse

/-- First-match association-list lookup (Python `dict`-style lookup). -/
def alookup {α β : Type} [DecidableEq α] : List (α × β) → α → Option β
  | [], _ => none
  | (k, v) :: rest, k' => if k = k' then some v else alookup rest k'

/-- Concatenated image of a character under a char-to-string map. -/
def catMap (f : Char → List Char) : List Char → List Char
  | [] => []
  | c :: r => f c ++ catMap f r

/-! ### Modelled collaborator: `html.unescape` -/

/-- Finite table of named HTML entities (representative subset of the html5 table
used by the `html.unescape` collaborator). -/
def entityTable : List (List Char × Char) :=
  [(cs "amp;", '&'), (cs "lt;", '<'), (cs "gt;", '>'),
   (cs "quot;", '"'), (cs "apos;", '\''), (cs "nbsp;", '\xa0')]

/-- Longest-pattern-first lookup of a named entity at the head of `s`. -/
def entityLookup (s : List Char) : List (List Char × Char) → Option (Char × List Char)
  | [] => none
  | (pat, c) :: rest =>
    if pat.isPrefixOf s then some (c, s.drop pat.length) else entityLookup s rest

/-- Try to read one entity body (the text after a `&`): a decimal numeric
reference `#digits;` or a named entity from `entityTable`.  Returns the decoded
character and the remaining input. -/
def tryEntity (s : List Char) : Option (Char × List Char) :=
  match s with
  | '#' :: t =>
    let ds := t.takeWhile isAsciiDigit
    if ds = [] then none
    else
      match t.drop ds.length with
      | ';' :: r => some (Char.ofNat (ds.foldl (fun a c => 10 * a + (c.toNat - 48)) 0 % 1114112), r)
      | _ => none
  | _ => entityLookup s entityTable

/-- Modelled `html.unescape` scan; the fuel bounds the number of steps and is
always sufficient at `s.length` since every step consumes at least one
character. -/
def htmlUnescapeGo : Nat → List Char → List Char
  | 0, s => s
  | _ + 1, [] => []
  | n + 1, c :: rest =>
    if c = '&' then
      match tryEntity rest with
      | some (d, rest') => d :: htmlUnescapeGo n rest'
      | none => '&' :: htmlUnescapeGo n rest
    else c :: htmlUnescapeGo n rest

/-- Modelled `html.unescape`: replace entity references, which always begin
with `&`, by their decoded character; other characters pass through. -/
def htmlUnescape (s : List Char) : List Char := htmlUnescapeGo s.length s

/-! ### Modelled collaborator: `urllib.parse.unquote` -/

/-- Hexadecimal digit value. -/
def hexVal (c : Char) : Option Nat :=
  if isAsciiDigit c then some (c.toNat - 48)
  else if 'a' ≤ c ∧ c ≤ 'f' then some (c.toNat - 87)
  else if 'A' ≤ c ∧ c ≤ 'F' then some (c.toNat - 55)
  else none

/-- Modelled `urllib.parse.unquote`: decode `%XX` byte escapes (single-byte
decoding); malformed escapes pass through unchanged. -/
def urlUnquote : List Char → List Char
  | [] => []
  | '%' :: a :: b :: rest =>
    match hexVal a, hexVal b with
    | some x, some y => Char.ofNat (16 * x + y) :: urlUnquote rest
    | _, _ => '%' :: urlUnquote (a :: b :: rest)
  | c :: rest => c :: urlUnquote rest

/-! ### Modelled collaborator: `unicodedata` (NFKD + combining) -/

/-- Modelled NFKD decomposition table (`unicodedata.normalize('NFKD', ·)`),
restricted to a representative set of characters; characters absent from the
table decompose to themselves. -/
def nfkdTable : List (Char × List Char) :=
  [('á', ['a', '\u0301']), ('à', ['a', '\u0300']), ('â', ['a', '\u0302']),
   ('ä', ['a', '\u0308']), ('ã', ['a', '\u0303']), ('å', ['a', '\u030a']),
   ('é', ['e', '\u0301']), ('è', ['e', '\u0300']), ('ê', ['e', '\u0302']),
   ('ë', ['e', '\u0308']), ('í', ['i', '\u0301']), ('ó', ['o', '\u0301']),
   ('ö', ['o', '\u0308']), ('ô', ['o', '\u0302']), ('ú', ['u', '\u0301']),
   ('ü', ['u', '\u0308']), ('ñ', ['n', '\u0303']), ('ç', ['c', '\u0327']),
   ('Á', ['A', '\u0301']), ('É', ['E', '\u0301']), ('Ö', ['O', '\u0308']),
   ('Ü', ['U', '\u0308']), ('Ñ', ['N', '\u0303']), ('Ç', ['C', '\u0327']),
   ('Å', ['A', '\u030a']),
   ('\xa0', [' ']), ('…', ['.', '.', '.']), ('²', ['2']), ('³', ['3']),
   ('ﬁ', ['f', 'i']), ('ﬂ', ['f', 'l'])]

/-- Per-character NFKD decomposition. -/
def nfkdD (c : Char) : List Char := (alookup nfkdTable c).getD [c]

/-- Modelled `unicodedata.combining · ≠ 0` as membership in a finite set of
combining code points. -/
def combiningSet : List Char :=
  ['\u0300', '\u0301', '\u0302', '\u0303', '\u0308', '\u030a', '\u0327']

def isCombining (c : Char) : Bool := decide (c ∈ combiningSet)

/-- `_fold_accents` from `Unique.py` (also the NFKD+combining steps of
`normalize_title` in `clean_ISSN.py`): NFKD-decompose, drop combining marks. -/
def fold_accents (s : List Char) : List Char :=
  (catMap nfkdD s).filter (fun c => !isCombining c)

/-! ### Modelled collaborator: `str.lower` -/

/-- Modelled `str.lower` table: ASCII uppercase plus a representative set of
non-ASCII cased characters; characters absent from the table are unchanged. -/
def lowerTable : List (Char × Char) :=
  [('A', 'a'), ('B', 'b'), ('C', 'c'), ('D', 'd'), ('E', 'e'), ('F', 'f'),
   ('G', 'g'), ('H', 'h'), ('I', 'i'), ('J', 'j'), ('K', 'k'), ('L', 'l'),
   ('M', 'm'), ('N', 'n'), ('O', 'o'), ('P', 'p'), ('Q', 'q'), ('R', 'r'),
   ('S', 's'), ('T', 't'), ('U', 'u'), ('V', 'v'), ('W', 'w'), ('X', 'x'),
   ('Y', 'y'), ('Z', 'z'), ('Ø', 'ø'), ('Å', 'å'), ('Æ', 'æ'), ('ß', 'ß')]

def pyLower1 (c : Char) : Char := (alookup lowerTable c).getD c

def pyLower (s : List Char) : List Char := s.map pyLower1

/-! ### `Unique.py` free-text normalizer -/

/-- `re.sub(r'\{|\}', '', s)` from `_norm_text`. -/
def removeBraces (s : List Char) : List Char :=
  s.filter (fun c => decide (c ≠ lb ∧ c ≠ rb))

/-- Suffix after the first `>`, if any. -/
def dropAfterGt : List Char → Option (List Char)
  | [] => none
  | c :: rest => if c = '>' then some rest else dropAfterGt rest

/-- Fuelled scan for `removeTags`; fuel `s.length` always suffices since every
step consumes at least one character. -/
def removeTagsGo : Nat → List Char → List Char
  | 0, s => s
  | _ + 1, [] => []
  | n + 1, c :: rest =>
    if c = '<' then
      match dropAfterGt rest with
      | some rest' => ' ' :: removeTagsGo n rest'
      | none => '<' :: removeTagsGo n rest
    else c :: removeTagsGo n rest

/-- `re.sub(r'<[^>]*>', ' ', s)` from `_norm_text`: each `<`…`>` span becomes
one space; a `<` with no later `>` is kept. -/
def removeTags (s : List Char) : List Char := removeTagsGo s.length s

/-- Match `\{[^{}]*\}` at the head: returns the rest after the closing brace. -/
def latexArgAux : List Char → Option (List Char)
  | [] => none
  | c :: r => if c = rb then some r else if c = lb then none else latexArgAux r

def latexArg : List Char → Option (List Char)
  | c :: rest => if c = lb then latexArgAux rest else none
  | [] => none

/-- Fuelled scan for the `re.sub(r'\\[a-zA-Z]+(\{[^{}]*\})?', ' ', s)` step of
`_strip_latex`; fuel `s.length` always suffices since every step consumes at
least one character. -/
def stripLatexCmdsGo : Nat → List Char → List Char
  | 0, s => s
  | _ + 1, [] => []
  | n + 1, c :: rest =>
    if c = '\\' then
      if rest.takeWhile isAsciiLetter = [] then '\\' :: stripLatexCmdsGo n rest
      else
        match latexArg (rest.drop (rest.takeWhile isAsciiLetter).length) with
        | some r => ' ' :: stripLatexCmdsGo n r
        | none => ' ' :: stripLatexCmdsGo n (rest.drop (rest.takeWhile isAsciiLetter).length)
    else c :: stripLatexCmdsGo n rest

def stripLatexCmds (s : List Char) : List Char := stripLatexCmdsGo s.length s

/-- Replace every (non-overlapping, left-to-right) occurrence of the two-char
sequence `a b` by `r` (Python `str.replace` on a two-character pattern). -/
def replace2 (a b r : Char) : List Char → List Char
  | [] => []
  | [x] => [x]
  | x :: y :: rest =>
    if x = a ∧ y = b then r :: replace2 a b r rest
    else x :: replace2 a b r (y :: rest)

/-- `_strip_latex` from `Unique.py`. -/
def strip_latex (s : List Char) : List Char :=
  replace2 '\\' '%' '%' (replace2 '\\' '/' '/' (replace2 '\\' '&' '&' (stripLatexCmds s)))

/-- The punctuation class replaced by spaces in `_norm_text`. -/
def punctSet : List Char :=
  ['.', ',', ';', ':', '-', '–', '—', '(', ')', '[', ']', '"', '\'', '`', '´',
   '’', '“', '”', '/', '\\', '_', '~', '!', '?', '|', '+', '&', '^', '%', '$',
   '#', '@', '*', '=', '<', '>']

def punctToSpace (s : List Char) : List Char :=
  s.map (fun c => if c ∈ punctSet then ' ' else c)

/-- Split into maximal whitespace-free tokens (Python `str.split()`). -/
def wsTokensAux : List Char → List Char → List (List Char)
  | [], acc => if acc = [] then [] else [acc.reverse]
  | c :: rest, acc =>
    if isPySpace c then
      if acc = [] then wsTokensAux rest [] else acc.reverse :: wsTokensAux rest []
    else wsTokensAux rest (c :: acc)

def wsTokens (s : List Char) : List (List Char) := wsTokensAux s []

/-- Join tokens with single spaces. -/
def joinSp : List (List Char) → List Char
  | [] => []
  | t :: ts => match ts with
    | [] => t
    | _ :: _ => t ++ ' ' :: joinSp ts

/-- `re.sub(r'\s+', ' ', s).strip()` from `_norm_text`. -/
def collapseWs (s : List Char) : List Char := joinSp (wsTokens s)

/-- `_norm_text` from `Unique.py` (the free-text normalizer). -/
def norm_text (s : List Char) : List Char :=
  collapseWs (punctToSpace (pyLower (fold_accents (strip_latex
    (removeTags (removeBraces (urlUnquote (htmlUnescape s))))))))

/-- `_norm_text` including its `None → ""` guard. -/
def norm_text_opt (s : Option (List Char)) : List Char := norm_text (s.getD [])

/-! ### `Unique.py` field reader `get_field` -/

/-- Case-insensitive prefix test (Python `re.IGNORECASE` on a literal,
compared through the modelled `str.lower`). -/
def ciStartsWith : List Char → List Char → Bool
  | [], _ => true
  | _ :: _, [] => false
  | p :: ps, c :: rest => decide (pyLower1 p = pyLower1 c) && ciStartsWith ps rest

/-- Characters before the first occurrence of `d`, or `none` when `d` is absent
(the lazy `(.*?)d` idiom). -/
def upToChar (d : Char) : List Char → Option (List Char)
  | [] => none
  | c :: r => if c = d then some [] else (upToChar d r).map (c :: ·)

/-- Matcher for `\s*{field}\s*=\s*{od}(.*?){cd}` at the current position
(the body of `get_field`'s patterns; the trailing `\s*,?` always matches). -/
def matchDelim (field : List Char) (od cd : Char) (s : List Char) : Option (List Char) :=
  let t := s.dropWhile isPySpace
  if ciStartsWith field t then
    match (t.drop field.length).dropWhile isPySpace with
    | '=' :: t3 =>
      match t3.dropWhile isPySpace with
      | c :: t4 => if c = od then upToChar cd t4 else none
      | [] => none
    | _ => none
  else none

/-- `re.search` for a `(?m)^`-anchored pattern: try the matcher at position 0
and after every newline, left to right. -/
def searchLA {α : Type} (m : List Char → Option α) : Bool → List Char → Option α
  | atStart, [] => if atStart then m [] else none
  | atStart, c :: rest =>
    match (if atStart then m (c :: rest) else none) with
    | some r => some r
    | none => searchLA m (decide (c = '\n')) rest

/-- `get_field` from `Unique.py`: first the brace-delimited pattern anywhere in
the entry, then (only if that finds nothing) the quote-delimited pattern. -/
def get_field (entry field : List Char) : Option (List Char) :=
  match searchLA (matchDelim field lb rb) true entry with
  | some v => some (pyStrip v)
  | none =>
    match searchLA (matchDelim field '"' '"') true entry with
    | some v => some (pyStrip v)
    | none => none

/-- Python truthiness of an optional string (`if x:`). -/
def truthy : Option (List Char) → Option (List Char)
  | some v => if v = [] then none else some v
  | none => none

/-! ### `Unique.py` DOI normalization (`DOI_RE`, `_normalize_doi`) -/

def wordOpt : Option Char → Bool
  | none => false
  | some c => isWordChar c

/-- Backtracking for the trailing `\S+\b` of `DOI_RE`: the largest `k ≥ 1` such
that a word boundary falls right after the first `k` characters of `run`
(`next` is the character following `run`, if any). -/
def shrinkB (run : List Char) (next : Option Char) : Nat → Option Nat
  | 0 => none
  | k + 1 =>
    match run[k]? with
    | none => shrinkB run next k
    | some last =>
      let nxt := match run[k + 1]? with
        | some c => some c
        | none => next
      if isWordChar last != wordOpt nxt then some (k + 1) else shrinkB run next k

/-- `DOI_RE = re.compile(r'\b10\.\d{4,9}/\S+\b', re.I)` matched at the current
position (`prev` is the preceding character, for the leading `\b`). -/
def doiMatchAt (prev : Option Char) (s : List Char) : Option (List Char) :=
  match s with
  | '1' :: '0' :: '.' :: rest =>
    if wordOpt prev then none
    else
      let ds := rest.takeWhile isAsciiDigit
      if 4 ≤ ds.length ∧ ds.length ≤ 9 then
        match rest.drop ds.length with
        | '/' :: rest2 =>
          let run := rest2.takeWhile (fun c => !isPySpace c)
          match shrinkB run rest2[run.length]? run.length with
          | some k => some ('1' :: '0' :: '.' :: (ds ++ '/' :: run.take k))
          | none => none
        | _ => none
      else none
  | _ => none

/-- `DOI_RE.search`: leftmost match over all positions. -/
def doiSearchAux (prev : Option Char) : List Char → Option (List Char)
  | [] => doiMatchAt prev []
  | c :: rest =>
    match doiMatchAt prev (c :: rest) with
    | some r => some r
    | none => doiSearchAux (some c) rest

/-- Case-insensitive literal prefix strip. -/
def ciDropPre (pat s : List Char) : Option (List Char) :=
  if ciStartsWith pat s then some (s.drop pat.length) else none

/-- The fallback pattern `(?:https?://)?(?:dx\.)?doi\.org/([^?\s]+)` (re.I)
matched at the current position; returns group 1. -/
def doiOrgMatchAt (s : List Char) : Option (List Char) :=
  let t1 := match ciDropPre (cs "https://") s with
    | some r => r
    | none => (ciDropPre (cs "http://") s).getD s
  let t2 := (ciDropPre (cs "dx.") t1).getD t1
  match ciDropPre (cs "doi.org/") t2 with
  | some t3 =>
    let run := t3.takeWhile (fun c => !(c = '?' || isPySpace c))
    if run = [] then none else some run
  | none => none

/-- `re.search` for the fallback doi.org pattern (unanchored: every position). -/
def doiOrgSearch : List Char → Option (List Char)
  | [] => none
  | c :: rest =>
    match doiOrgMatchAt (c :: rest) with
    | some r => some r
    | none => doiOrgSearch rest

/-- Python `str.rstrip(cset)`. -/
def rstripSet (s cset : List Char) : List Char :=
  (s.reverse.dropWhile (fun c => decide (c ∈ cset))).reverse

/-- Case-sensitive literal prefix strip. -/
def dropPre (pat s : List Char) : Option (List Char) :=
  if pat.isPrefixOf s then some (s.drop pat.length) else none

/-- `re.sub(r'^(https?://)?(dx\.)?doi\.org/', '', doi)`: strip the resolver
prefix when the whole anchored pattern matches, else leave unchanged. -/
def stripDoiOrg (s : List Char) : List Char :=
  let t1 := (dropPre (cs "https://") s).getD ((dropPre (cs "http://") s).getD s)
  let t2 := (dropPre (cs "dx.") t1).getD t1
  match dropPre (cs "doi.org/") t2 with
  | some t3 => t3
  | none => s

/-- `re.sub(r'^\s*doi:\s*', '', doi)`. -/
def stripDoiColon (s : List Char) : List Char :=
  match dropPre (cs "doi:") (s.dropWhile isPySpace) with
  | some r => r.dropWhile isPySpace
  | none => s

/-- `_normalize_doi` from `Unique.py`. -/
def normalize_doi (raw : List Char) : Option (List Char) :=
  if raw = [] then none
  else
    let raw2 := urlUnquote (htmlUnescape raw)
    let doi0 := match doiSearchAux none raw2 with
      | some d => d
      | none =>
        match doiOrgSearch raw2 with
        | some g => g
        | none => raw2
    let doi1 := pyLower (pyStrip doi0)
    let doi2 := rstripSet doi1 [' ', '.', ';', ',']
    let doi3 := stripDoiColon (stripDoiOrg doi2)
    let doi4 := doi3.filter (fun c => decide (c ≠ ' '))
    if (doiMatchAt none doi4).isSome then some doi4 else none

/-- `_normalize_doi` including its `None` guard (`if not raw`). -/
def normalize_doi_opt : Option (List Char) → Option (List Char)
  | some r => normalize_doi r
  | none => none

/-- `_find_normalized_doi` from `Unique.py`. -/
def find_normalized_doi (e : List Char) : Option (List Char) :=
  match truthy (normalize_doi_opt (get_field e (cs "doi"))) with
  | some d => some d
  | none => normalize_doi_opt (get_field e (cs "url"))

/-! ### `Unique.py` dedupe key (`build_dedupe_key`) -/

/-- `re.search(r'\d{4}', year)`: first run of four consecutive digits. -/
def find4Digits : List Char → Option (List Char)
  | a :: b :: c :: d :: rest =>
    if isAsciiDigit a && isAsciiDigit b && isAsciiDigit c && isAsciiDigit d then
      some [a, b, c, d]
    else find4Digits (b :: c :: d :: rest)
  | _ => none

/-- `build_dedupe_key` from `Unique.py`: the fixed-priority strategy cascade. -/
def build_dedupe_key (e : List Char) : List Char × List Char :=
  match truthy (find_normalized_doi e) with
  | some d => (cs "DOI", d)
  | none =>
    match truthy (get_field e (cs "title")) with
    | some t =>
      match truthy (get_field e (cs "year")) with
      | some y =>
        match find4Digits y with
        | some yr => (cs "TITLE_YEAR", norm_text t ++ cs "::" ++ yr)
        | none => (cs "TITLE", norm_text t)
      | none => (cs "TITLE", norm_text t)
    | none =>
      match truthy (get_field e (cs "abstract")) with
      | some a => (cs "ABSTRACT", norm_text a)
      | none => (cs "FALLBACK", norm_text e)

/-! ### `Unique.py` tokenizer `extract_entries` -/

/-- Match `ENTRY_START_RE = @([A-Za-z]+)\s*\{` at the head; returns the matched
text (ending with the opening brace) and the rest. -/
def matchEntryHead : List Char → Option (List Char × List Char)
  | '@' :: t =>
    let ls := t.takeWhile isAsciiLetter
    if ls = [] then none
    else
      let t2 := t.drop ls.length
      let ws := t2.takeWhile isPySpace
      match t2.drop ws.length with
      | c :: r => if c = lb then some ('@' :: (ls ++ ws ++ [lb]), r) else none
      | [] => none
  | _ => none

/-- `ENTRY_START_RE.search`: leftmost match; returns the text before the match,
the matched header (ending with the opening brace) and the rest. -/
def findEntryStart : List Char → Option (List Char × List Char × List Char)
  | [] => none
  | c :: rest =>
    match matchEntryHead (c :: rest) with
    | some (hdr, r) => some ([], hdr, r)
    | none => (findEntryStart rest).map (fun p => (c :: p.1, p.2.1, p.2.2))

/-- Depth-counting scan after an opening delimiter (current depth `d`, which is
1 right after the opener): returns the consumed text including the matching
closer, and the rest; `none` when the depth never returns to zero. -/
def scanBalanced (oc cc : Char) : Nat → List Char → Option (List Char × List Char)
  | _, [] => none
  | d, c :: r =>
    if c = oc then (scanBalanced oc cc (d + 1) r).map (fun p => (c :: p.1, p.2))
    else if c = cc then
      if d = 1 then some ([c], r)
      else (scanBalanced oc cc (d - 1) r).map (fun p => (c :: p.1, p.2))
    else (scanBalanced oc cc d r).map (fun p => (c :: p.1, p.2))

/-- Fuelled loop of `extract_entries`; fuel `s.length` always suffices since
every produced entry consumes at least its header. -/
def extractEntriesGo : Nat → List Char → List (List Char)
  | 0, _ => []
  | n + 1, s =>
    match findEntryStart s with
    | none => []
    | some (_, hdr, rest) =>
      match scanBalanced lb rb 1 rest with
      | some (inside, after) => (hdr ++ inside) :: extractEntriesGo n after
      | none => [hdr ++ rest]

/-- `extract_entries` from `Unique.py`. -/
def extract_entries (s : List Char) : List (List Char) := extractEntriesGo s.length s

/-! ### `Unique.py` record augmentation (`append_fields` and helpers) -/

/-- Index of the first occurrence of `c` (Python `str.index`/`str.find`). -/
def idxOf? (c : Char) : List Char → Option Nat
  | [] => none
  | x :: r => if x = c then some 0 else (idxOf? c r).map (· + 1)

/-- Index one past the first comma after the first opening brace, or 0 when
either is missing (the `except ValueError` branch shared by
`has_source_field`, `detect_common_field_indent` and `get_bibtex_id`). -/
def afterHeaderIdx (e : List Char) : Nat :=
  match idxOf? lb e with
  | none => 0
  | some i =>
    match idxOf? ',' (e.drop (i + 1)) with
    | none => 0
    | some j => i + 1 + j + 1

/-- `str.rfind(c)`: index of the last occurrence, if any. -/
def rfindIdx (c : Char) (e : List Char) : Option Nat :=
  (idxOf? c e.reverse).map (fun k => e.length - 1 - k)

/-- Matcher for `^\s*source\s*=` (the pattern of `has_source_field`). -/
def matchSourceEq (s : List Char) : Option Unit :=
  let t := s.dropWhile isPySpace
  if ciStartsWith (cs "source") t then
    match (t.drop 6).dropWhile isPySpace with
    | '=' :: _ => some ()
    | _ => none
  else none

/-- `has_source_field` from `Unique.py`. -/
def has_source_field (e : List Char) : Bool :=
  (searchLA matchSourceEq true (e.drop (afterHeaderIdx e))).isSome

/-- Python `str.splitlines` (on `\n`, `\r\n` and `\r`). -/
def splitLinesAux : List Char → List Char → List (List Char)
  | [], acc => if acc = [] then [] else [acc.reverse]
  | '\n' :: rest, acc => acc.reverse :: splitLinesAux rest []
  | '\r' :: '\n' :: rest, acc => acc.reverse :: splitLinesAux rest []
  | '\r' :: rest, acc => acc.reverse :: splitLinesAux rest []
  | c :: rest, acc => splitLinesAux rest (c :: acc)

def splitLines (s : List Char) : List (List Char) := splitLinesAux s []

/-- One `Counter` update, preserving first-seen key order. -/
def bump : List (List Char × Nat) → List Char → List (List Char × Nat)
  | [], x => [(x, 1)]
  | (k, n) :: r, x => if k = x then (k, n + 1) :: r else (k, n) :: bump r x

/-- `collections.Counter` over a list, in first-seen key order. -/
def tallyAux : List (List Char × Nat) → List (List Char) → List (List Char × Nat)
  | acc, [] => acc
  | acc, x :: r => tallyAux (bump acc x) r

def maxCount : List (List Char × Nat) → Nat
  | [] => 0
  | (_, n) :: r => max n (maxCount r)

/-- Python `min(candidates, key=len)`: keeps the first element among ties. -/
def pyMinByLen : List Char → List (List Char) → List Char
  | x, [] => x
  | x, y :: r => if y.length < x.length then pyMinByLen y r else pyMinByLen x r

/-- `detect_common_field_indent` from `Unique.py`. -/
def detect_common_field_indent (e : List Char) : List Char :=
  let lastB := match rfindIdx rb e with
    | some i => i
    | none => e.length
  let body := (e.take lastB).drop (afterHeaderIdx e)
  let indents := (splitLines body).filterMap (fun line =>
    if pyStrip line = [] then none
    else if '=' ∈ line then some (line.takeWhile isPySpace) else none)
  match indents with
  | [] => []
  | i0 :: _ =>
    let counts := tallyAux [] indents
    let mx := maxCount counts
    let candidates := (counts.filter (fun p => decide (p.2 = mx))).map (·.1)
    match candidates with
    | [] => i0
    | c0 :: crest => pyMinByLen c0 crest

/-- `append_fields` from `Unique.py`: insert `source` (only when a truthy value
is supplied and no source field exists) and always `actualSearch`, right before
the final closing brace. -/
def append_fields (e actual_search : List Char) (source_val : Option (List Char)) : List Char :=
  let indent := detect_common_field_indent e
  let nl := if '\n' ∈ e then ['\n'] else ['\r', '\n']
  let sourceIns := match source_val with
    | some v =>
      if v ≠ [] ∧ ¬has_source_field e then
        indent ++ cs "source = " ++ lb :: v ++ rb :: ',' :: nl
      else []
    | none => []
  let ins := sourceIns ++ indent ++ cs "actualSearch = " ++ lb :: actual_search ++ rb :: nl
  match rfindIdx rb e with
  | some i => e.take i ++ ins ++ rb :: e.drop (i + 1)
  | none => e ++ ins

/-- `get_bibtex_id` from `Unique.py`. -/
def get_bibtex_id (e : List Char) : List Char :=
  match idxOf? lb e with
  | none => []
  | some i =>
    match idxOf? ',' (e.drop (i + 1)) with
    | none => []
    | some j => pyStrip ((e.drop (i + 1)).take j)

/-- `os.path.basename` (modelled: text after the last slash). -/
def pyBasename (fp : List Char) : List Char :=
  (fp.reverse.takeWhile (fun c => decide (c ≠ '/'))).reverse

/-- `os.path.splitext(·)[0]` (modelled: drop the extension from the last dot,
unless the dot is the leading character). -/
def splitextRoot (b : List Char) : List Char :=
  match idxOf? '.' b.reverse with
  | none => b
  | some k => if k = b.length - 1 then b else b.take (b.length - 1 - k)

/-- `split_filename_parts` from `Unique.py`. -/
def split_filename_parts (fp : List Char) : List Char × Option (List Char) :=
  let base := splitextRoot (pyBasename fp)
  match idxOf? '-' base with
  | some i =>
    let left := pyStrip (base.take i)
    let right := pyStrip (base.drop (i + 1))
    ((if left = [] then cs "unknown" else left),
     some (if right = [] then cs "unknown" else right))
  | none =>
    let left := pyStrip base
    ((if left = [] then cs "unknown" else left), none)

/-! ### `Unique.py` deduplication pass (the loop of `main`) -/

/-- One per-record report item of `main` (the `item` dict). -/
structure DedupItem where
  kept : Bool
  file : List Char
  bib_id : List Char
  title_raw : List Char
  year : List Char
  source : List Char
  actualSearch : List Char
  strategy : List Char
  key : List Char
  entry_text : List Char
deriving DecidableEq

/-- The mutable state of the dedup loop in `main` (`seen_keys`, `merged_entries`,
`groups`), plus the flat list of produced items in processing order. -/
structure DedupState where
  seen : List (List Char × List Char)
  merged : List (List Char)
  groups : List ((List Char × List Char) × List DedupItem)
  items : List DedupItem
deriving DecidableEq

/-- `groups[(strategy, key)].append(item)` on an insertion-ordered table. -/
def groupsAppend (g : List ((List Char × List Char) × List DedupItem))
    (k : List Char × List Char) (v : DedupItem) :
    List ((List Char × List Char) × List DedupItem) :=
  match g with
  | [] => [(k, [v])]
  | (k', vs) :: rest =>
    if k' = k then (k', vs ++ [v]) :: rest else (k', vs) :: groupsAppend rest k v

def groupsLookup (g : List ((List Char × List Char) × List DedupItem))
    (k : List Char × List Char) : List DedupItem :=
  (alookup g k).getD []

/-- `Python x or default` on an optional string field. -/
def orEmpty (a : Option (List Char)) : List Char :=
  match a with
  | some v => v
  | none => []

/-- `get_field(...) or fallback` (Python `or` with string truthiness). -/
def orElseStr (a : Option (List Char)) (b : List Char) : List Char :=
  match a with
  | some v => if v = [] then b else v
  | none => b

/-- The body of the per-entry loop in `main` of `Unique.py`. -/
def dedup_step (fp : List Char) (st : DedupState) (entry_text : List Char) : DedupState :=
  let parts := split_filename_parts fp
  let actual_search := parts.1
  let source_from_name := parts.2
  let updated := append_fields entry_text actual_search source_from_name
  let sk := build_dedupe_key updated
  let item : DedupItem := {
    kept := decide (sk ∉ st.seen)
    file := pyBasename fp
    bib_id := get_bibtex_id updated
    title_raw := orEmpty (truthy (get_field updated (cs "title")))
    year := orEmpty (truthy (get_field updated (cs "year")))
    source := orElseStr (get_field updated (cs "source")) (orEmpty (truthy source_from_name))
    actualSearch := actual_search
    strategy := sk.1
    key := sk.2
    entry_text := updated }
  if sk ∈ st.seen then
    { st with groups := groupsAppend st.groups sk item, items := st.items ++ [item] }
  else
    { seen := st.seen ++ [sk]
      merged := st.merged ++ [updated]
      groups := groupsAppend st.groups sk item
      items := st.items ++ [item] }

/-- The whole dedup pass of `main`: files in the given order, entries of each
file in source order (`extract_entries` of the file's raw text). -/
def process_files (files : List (List Char × List Char)) : DedupState :=
  files.foldl (fun st p => (extract_entries p.2).foldl (dedup_step p.1) st)
    ⟨[], [], [], []⟩

/-! ### `Keywords.py` tokenizer `split_entries` -/

/-- Split at the first `@`: returns the text before it and the text from the
`@` (inclusive). -/
def findAtSign : List Char → Option (List Char × List Char)
  | [] => none
  | c :: rest =>
    if c = '@' then some ([], c :: rest)
    else (findAtSign rest).map (fun p => (c :: p.1, p.2))

/-- Fuelled loop of `split_entries` from `Keywords.py`. -/
def splitEntriesGo : Nat → List Char → List (List Char × List Char)
  | 0, _ => []
  | n + 1, s =>
    match s with
    | [] => []
    | _ :: _ =>
      match findAtSign s with
      | none => [(cs "non-entry", s)]
      | some (before, t) =>
        let pre : List (List Char × List Char) :=
          if before = [] then [] else [(cs "non-entry", before)]
        let t1 := t.tail
        let mid := t1.takeWhile (fun c => decide (c ≠ lb ∧ c ≠ '('))
        match t1.drop mid.length with
        | [] => pre ++ [(cs "non-entry", t)]
        | oc :: r2 =>
          let cc := if oc = lb then rb else ')'
          match scanBalanced oc cc 1 r2 with
          | some (inside, after) =>
            pre ++ (cs "entry", '@' :: (mid ++ oc :: inside)) :: splitEntriesGo n after
          | none => pre ++ [(cs "entry", t)]

/-- `split_entries` from `Keywords.py`. -/
def split_entries (s : List Char) : List (List Char × List Char) :=
  splitEntriesGo s.length s

/-! ### `Keywords.py` value decoder (`read_braced`, `read_quoted`, `read_value`) -/

/-- Loop of `read_braced` after the opening brace, at depth `d`. -/
def readBracedAux : Nat → List Char → List Char × List Char
  | _, [] => ([], [])
  | d, c :: r =>
    if c = lb then
      let p := readBracedAux (d + 1) r
      (c :: p.1, p.2)
    else if c = rb then
      if d = 1 then ([], r)
      else
        let p := readBracedAux (d - 1) r
        (c :: p.1, p.2)
    else
      let p := readBracedAux d r
      (c :: p.1, p.2)

/-- `read_braced` from `Keywords.py`.  The source asserts the first character
is an opening brace; `read_value` only calls it in that case, so the non-brace
branch here is unreachable from `read_value`. -/
def read_braced : List Char → List Char × List Char
  | c :: r => if c = lb then readBracedAux 1 r else ([], c :: r)
  | [] => ([], [])

/-- Loop of `read_quoted` after the opening quote (`esc` is the pending
backslash flag). -/
def readQuotedAux : Bool → List Char → List Char × List Char
  | _, [] => ([], [])
  | esc, c :: r =>
    if esc then
      let p := readQuotedAux false r
      (c :: p.1, p.2)
    else if c = '\\' then readQuotedAux true r
    else if c = '"' then ([], r)
    else
      let p := readQuotedAux false r
      (c :: p.1, p.2)

/-- `read_quoted` from `Keywords.py` (same assertion remark as `read_braced`). -/
def read_quoted : List Char → List Char × List Char
  | c :: r => if c = '"' then readQuotedAux false r else ([], c :: r)
  | [] => ([], [])

/-- Fuelled loop of `read_value`.  Returns the collected parts and `some rest`
when `end_index` was set (`rest` is the suffix from `end_index`), or `none`
when the loop ended without setting `end_index`, in which case the source
keeps `end_index` at its initial value `start`. -/
def readValueGo : Nat → List Char → List (List Char) → List (List Char) × Option (List Char)
  | 0, _, parts => (parts, none)
  | n + 1, t, parts =>
    match t.dropWhile isPySpace with
    | [] => (parts, none)
    | c :: t1' =>
      let vr :=
        if c = lb then read_braced (c :: t1')
        else if c = '"' then read_quoted (c :: t1')
        else
          let bare := (c :: t1').takeWhile
            (fun x => decide (x ≠ ',' ∧ x ≠ '#' ∧ x ≠ '\r' ∧ x ≠ '\n'))
          (pyStrip bare, (c :: t1').drop bare.length)
      let parts' := parts ++ [vr.1]
      match vr.2.dropWhile isPySpace with
      | '#' :: t4 => readValueGo n t4 parts'
      | ',' :: t4 => (parts', some t4)
      | t3 => (parts', some t3)

/-- `read_value` from `Keywords.py`: returns the decoded value, the raw
consumed segment `s[start:end_index]`, and the suffix from `end_index`. -/
def read_value (s : List Char) : List Char × List Char × List Char :=
  let r := readValueGo s.length s []
  let joined := pyStrip (r.1.foldr (· ++ ·) [])
  match r.2 with
  | none => (joined, [], s)
  | some rest => (joined, s.take (s.length - rest.length), rest)

/-! ### `Add_type.py` tokenizer `extract_bibtex_entries` -/

/-- Match `RE_ENTRY_HEAD = @\s*([A-Za-z][A-Za-z_-]*)\s*([{(])` (re.A) at the
head: returns (matched text including the opening delimiter, type name,
opening delimiter, rest). -/
def matchHeadA : List Char → Option (List Char × List Char × Char × List Char)
  | '@' :: t =>
    let ws := t.takeWhile isAsciiSpace
    match t.drop ws.length with
    | c :: t2 =>
      if isAsciiLetter c then
        let ls := t2.takeWhile (fun x => isAsciiLetter x || decide (x = '_' ∨ x = '-'))
        let ws2 := (t2.drop ls.length).takeWhile isAsciiSpace
        match (t2.drop ls.length).drop ws2.length with
        | d :: r =>
          if d = lb ∨ d = '(' then
            some ('@' :: (ws ++ (c :: ls) ++ ws2 ++ [d]), c :: ls, d, r)
          else none
        | [] => none
      else none
    | [] => none
  | _ => none

/-- `RE_ENTRY_HEAD.search`: leftmost match. -/
def findHeadA : List Char → Option (List Char × List Char × Char × List Char)
  | [] => none
  | c :: rest =>
    match matchHeadA (c :: rest) with
    | some r => some r
    | none => findHeadA rest

/-- Fuelled loop of `extract_bibtex_entries`: an unbalanced candidate is
skipped, resuming right after its opening delimiter (`i = m.end()`). -/
def extractBibGo : Nat → List Char → List (List Char × List Char)
  | 0, _ => []
  | n + 1, s =>
    match findHeadA s with
    | none => []
    | some (hdr, ty, oc, rest) =>
      let cc := if oc = lb then rb else ')'
      match scanBalanced oc cc 1 rest with
      | some (inside, after) => (ty, hdr ++ inside) :: extractBibGo n after
      | none => extractBibGo n rest

/-- `extract_bibtex_entries` from `Add_type.py` (entry type and raw text of
each balanced entry, in order). -/
def extract_bibtex_entries (s : List Char) : List (List Char × List Char) :=
  extractBibGo s.length s

/-! ### `Screening.py` field extraction (`normalize_value`, `extract_all_fields`) -/

def isTabSpace (c : Char) : Bool := decide (c = ' ' ∨ c = '\t')

def isNameChar (c : Char) : Bool :=
  isAsciiLetter c || isAsciiDigit c || decide (c = '_' ∨ c = ':' ∨ c = '-')

/-- `normalize_value` from `Screening.py`; `none` models the `IndexError` the
source raises when the stripped value is empty (`"".splitlines()[0]`). -/
def normalize_value (v : List Char) : Option (List Char) :=
  match splitLines (pyStrip v) with
  | [] => none
  | l :: _ =>
    let fl := pyStrip l
    match fl with
    | [] => some []
    | c :: _ =>
      if (c = lb ∧ fl.getLast? = some rb) ∨ (c = '"' ∧ fl.getLast? = some '"') then
        some (pyStrip ((fl.drop 1).dropLast))
      else some fl

/-- Third alternative `[^,\r\n]+` of the value group, including the
backtracking of the preceding `[ \t]*` by one character when the greedy
position yields an empty bare token. -/
def bareFallback (nm ws3 t4 : List Char) : Option (List Char × List Char × List Char) :=
  let bare := t4.takeWhile (fun x => decide (x ≠ ',' ∧ x ≠ '\r' ∧ x ≠ '\n'))
  if bare = [] then
    match ws3.getLast? with
    | some w => some (nm, [w], t4)
    | none => none
  else some (nm, bare, t4.drop bare.length)

/-- One match of `(?im)^[ \t]*([A-Za-z0-9_:\-]+)[ \t]*=[ \t]*(".*?"|\{.*?\}|[^,\r\n]+)`
(with `re.DOTALL`) at a line start: returns (name, raw group-2 value, rest). -/
def matchFieldLine (s : List Char) : Option (List Char × List Char × List Char) :=
  let t := s.dropWhile isTabSpace
  let nm := t.takeWhile isNameChar
  if nm = [] then none
  else
    match (t.drop nm.length).dropWhile isTabSpace with
    | '=' :: t3 =>
      let ws3 := t3.takeWhile isTabSpace
      match t3.drop ws3.length with
      | '"' :: q =>
        match upToChar '"' q with
        | some content => some (nm, '"' :: (content ++ ['"']), q.drop (content.length + 1))
        | none => bareFallback nm ws3 ('"' :: q)
      | c :: q =>
        if c = lb then
          match upToChar rb q with
          | some content => some (nm, lb :: (content ++ [rb]), q.drop (content.length + 1))
          | none => bareFallback nm ws3 (c :: q)
        else bareFallback nm ws3 (c :: q)
      | [] => bareFallback nm ws3 []
    | _ => none

/-- Fuelled `re.finditer` loop for the field pattern of `extract_all_fields`
(`^`-anchored; a match never ends right after a newline, so resumption is
never at a line start). -/
def finditerGo : Nat → Bool → List Char → List (List Char × List Char)
  | 0, _, _ => []
  | n + 1, atStart, s =>
    match s with
    | [] => []
    | c :: rest =>
      match (if atStart then matchFieldLine s else none) with
      | some (nm, v, after) => (nm, v) :: finditerGo n false after
      | none => finditerGo n (decide (c = '\n')) rest

/-- Dict-building loop of `extract_all_fields`: the first occurrence of each
lowercased name wins; `none` propagates the `IndexError` of `normalize_value`. -/
def buildFields (acc : List (List Char × List Char)) :
    List (List Char × List Char) → Option (List (List Char × List Char))
  | [] => some acc
  | (nm, rv) :: ms =>
    if (alookup acc (pyLower (pyStrip nm))).isSome then buildFields acc ms
    else
      match normalize_value rv with
      | none => none
      | some v => buildFields (acc ++ [(pyLower (pyStrip nm), v)]) ms

/-- Python `str.split(d)`. -/
def splitOnChar (d : Char) : List Char → List (List Char)
  | [] => [[]]
  | c :: r =>
    let ps := splitOnChar d r
    if c = d then [] :: ps
    else
      match ps with
      | p :: rest => (c :: p) :: rest
      | [] => [[c]]

/-- `[p.strip() for p in sw.split(';') if p.strip()]`. -/
def splitSemiTrim (v : List Char) : List (List Char) :=
  ((splitOnChar ';' v).map pyStrip).filter (fun p => decide (p ≠ []))

/-- The result of `extract_all_fields`: the field dict (insertion-ordered,
first occurrence wins) and the derived `searchword_list` entry, which the
source stores in the same dict under the key `'searchword_list'`. -/
structure FieldsView where
  fields : List (List Char × List Char)
  searchword_list : List (List Char)
deriving DecidableEq

/-- `extract_all_fields` from `Screening.py` (with the `langid`-to-`language`
aliasing and the `searchword_list` derivation). -/
def extract_all_fields (e : List Char) : Option FieldsView :=
  match buildFields [] (finditerGo e.length true e) with
  | none => none
  | some fs =>
    let fs2 :=
      if (alookup fs (cs "language")).isNone ∧ (alookup fs (cs "langid")).isSome then
        fs ++ [(cs "language", (alookup fs (cs "langid")).getD [])]
      else fs
    some ⟨fs2,
      match alookup fs2 (cs "searchword") with
      | some v => splitSemiTrim v
      | none => []⟩

/-! ### `clean_ISSN.py` -/

/-- Characters up to and including the first occurrence of `d1` or `d2`, plus
the rest (the lazy `.*?[}"]` idiom with the closer captured). -/
def upToEither (d1 d2 : Char) : List Char → Option (List Char × List Char)
  | [] => none
  | c :: r =>
    if c = d1 ∨ c = d2 then some ([c], r)
    else (upToEither d1 d2 r).map (fun p => (c :: p.1, p.2))

/-- Matcher for `^\s*{field}\s*=\s*([{"].*?[}"])` (pattern of `extract_field`
in `clean_ISSN.py`); the captured group includes both delimiters. -/
def matchFieldDelims (field : List Char) (s : List Char) : Option (List Char) :=
  let t := s.dropWhile isPySpace
  if ciStartsWith field t then
    match (t.drop field.length).dropWhile isPySpace with
    | '=' :: t3 =>
      match t3.dropWhile isPySpace with
      | c :: t4 =>
        if c = lb ∨ c = '"' then (upToEither rb '"' t4).map (fun p => c :: p.1)
        else none
      | [] => none
    | _ => none
  else none

/-- `extract_field` from `clean_ISSN.py`. -/
def extract_field (e field : List Char) : Option (List Char) :=
  searchLA (matchFieldDelims field) true e

/-- `strip_braces_quotes` from `clean_ISSN.py`. -/
def strip_braces_quotes (s : List Char) : List Char :=
  let t := pyStrip s
  match t with
  | [] => []
  | c :: _ =>
    if (c = lb ∧ t.getLast? = some rb) ∨ (c = '"' ∧ t.getLast? = some '"') then
      (t.drop 1).dropLast
    else t

/-- `normalize_issn` from `clean_ISSN.py`. -/
def normalize_issn (raw : List Char) : Option (List Char) :=
  if raw = [] then none
  else
    let s := (raw.filter (fun c => isAsciiDigit c || decide (c = 'x' ∨ c = 'X'))).map
      (fun c => if c = 'x' then 'X' else c)
    if s.length = 8 then some (s.take 4 ++ '-' :: s.drop 4) else none

/-- `normalize_title` from `clean_ISSN.py`. -/
def normalize_title (title : List Char) : Option (List Char) :=
  if title = [] then none
  else
    let t0 := strip_braces_quotes title
    let t1 := fold_accents t0
    let t2 := t1.filter (fun c => decide (c ≠ lb ∧ c ≠ rb))
    let t3 := t2.map (fun c => if isWordChar c || isPySpace c then c else ' ')
    let t4 := collapseWs (pyLower t3)
    if t4 = [] then none else some t4

/-- The `(norm_issn, norm_title)` key of one entry in
`clean_bibtex_duplicates_with_report`, present only when both normalize. -/
def cleanKey (e : List Char) : Option (List Char × List Char) :=
  let ni := match extract_field e (cs "issn") with
    | some r => normalize_issn (strip_braces_quotes r)
    | none => none
  let nt := match extract_field e (cs "title") with
    | some r => normalize_title r
    | none => none
  match ni, nt with
  | some i, some t => some (i, t)
  | _, _ => none

/-- State of the per-file cleaning loop (`seen`, `kept_entries`, and a
removed/kept flag per entry in source order). -/
structure CleanState where
  seen : List (List Char × List Char)
  kept : List (List Char)
  flags : List Bool
deriving DecidableEq

/-- The per-entry body of the cleaning loop of
`clean_bibtex_duplicates_with_report`. -/
def clean_step (st : CleanState) (e : List Char) : CleanState :=
  match cleanKey e with
  | some k =>
    if k ∈ st.seen then { st with flags := st.flags ++ [true] }
    else { seen := st.seen ++ [k], kept := st.kept ++ [e], flags := st.flags ++ [false] }
  | none => { st with kept := st.kept ++ [e], flags := st.flags ++ [false] }

/-- The per-file cleaning loop of `clean_bibtex_duplicates_with_report`. -/
def clean_file (entries : List (List Char)) : CleanState :=
  entries.foldl clean_step ⟨[], [], []⟩

/-- The character-level facts enjoyed by every character of a `norm_text`
output: none of the characters that trigger the earlier pipeline stages, and
stability under accent folding and lowercasing.  (Spaces and all surviving
punctuation-free characters satisfy this.) -/
def niceChar (c : Char) : Prop :=
  c ≠ '&' ∧ c ≠ '%' ∧ c ≠ lb ∧ c ≠ rb ∧ c ≠ '<' ∧ c ≠ '\\' ∧
  nfkdD c = [c] ∧ isCombining c = false ∧ pyLower1 c = c ∧ c ∉ punctSet

/-- Brace-balance check at starting depth `d`: `true` iff scanning `w` from
depth `d` never closes a brace at depth 0 and ends back at depth `d`...
precisely, `braceBal 0 w` says `w` is a self-contained balanced brace text, so
that in `{w}` the closer matching the first `{` is the final one. -/
def braceBal : Nat → List Char → Bool
  | d, [] => decide (d = 0)
  | d, c :: r =>
    if c = lb then braceBal (d + 1) r
    else if c = rb then decide (d ≠ 0) && braceBal (d - 1) r
    else braceBal d r

/-- `true` iff the depth-counting scan of `read_braced` (already inside the
opening brace, at depth `d`) reaches its matching closing brace within `w`. -/
def bracedCloses : Nat → List Char → Bool
  | _, [] => false
  | d, c :: r =>
    if c = lb then bracedCloses (d + 1) r
    else if c = rb then if d = 1 then true else bracedCloses (d - 1) r
    else bracedCloses d r

/-- `true` iff the scan of `read_quoted` (already inside the opening quote,
escape flag `esc`) reaches an unescaped closing quote within `w`. -/
def quotedCloses : Bool → List Char → Bool
  | _, [] => false
  | esc, c :: r =>
    if esc then quotedCloses false r
    else if c = '\\' then quotedCloses true r
    else if c = '"' then true
    else quotedCloses false r

/-- A concrete record used to exercise the field extractor: a title, a
semicolon-separated `searchword` value and a `langid` that gets aliased. -/
def eC9 : List Char :=
  cs "@article\x7bk,\n  title = \x7bT1\x7d,\n  searchword = \x7bA; B ;; C\x7d,\n  langid = \x7benglish\x7d\n\x7d"

/-- A concrete record whose `title` field occurs twice: first quote-delimited
(value `A`), later brace-delimited (value `B`). -/
def eC9dup : List Char := cs "@a\x7bx,\ntitle = \x22A\x22,\ntitle = \x7bB\x7d\n\x7d"

/-- A concrete two-file input for the dedup pass whose two records normalize
to the same DOI key. -/
def fC2 : List (List Char × List Char) :=
  [(cs "f1-src.bib", cs "@a\x7bk1,\n doi = \x7b10.1234/x\x7d\n\x7d"),
   (cs "f2-other.bib", cs "@b\x7bk2,\n doi = \x7b10.1234/x\x7d,\n title = \x7bT\x7d\n\x7d")]

/-- Invariant of the dedup loop of `main` in `Unique.py`: `seen_keys` holds
exactly the `(strategy, key)` pairs of the items produced so far, every group
bucket is exactly the sublist of items (in processing order) carrying that
pair, `merged_entries` is the entry text of exactly the kept items in order,
and an item is kept iff no earlier item carries its pair. -/
def DedupInv (st : DedupState) : Prop :=
  (∀ k, k ∈ st.seen ↔ ∃ it, it ∈ st.items ∧ (it.strategy, it.key) = k) ∧
  (∀ k, groupsLookup st.groups k =
    st.items.filter (fun it => decide ((it.strategy, it.key) = k))) ∧
  (st.merged = (st.items.filter (fun it => it.kept)).map (fun it => it.entry_text)) ∧
  (∀ pre it post, st.items = pre ++ it :: post →
    (it.kept = true ↔ ∀ it', it' ∈ pre → (it'.strategy, it'.key) ≠ (it.strategy, it.key)))

/-- Invariant of the cleaning loop of `clean_bibtex_duplicates_with_report`
after the prefix `pre` of a file's entries has been processed: one flag per
entry, `kept` is exactly the unflagged entries in order, `seen` holds exactly
the keys of the processed entries, and an entry is flagged (removed) iff it
has a key that an earlier entry of the prefix also has. -/
def CleanInv (pre : List (List Char)) (st : CleanState) : Prop :=
  st.flags.length = pre.length ∧
  st.kept = (pre.zip st.flags).filterMap (fun p => if p.2 then none else some p.1) ∧
  (∀ k, k ∈ st.seen ↔ ∃ j, ∃ hj : j < pre.length, cleanKey (pre.get ⟨j, hj⟩) = some k) ∧
  (∀ i, ∀ hi : i < pre.length, ∀ hf : i < st.flags.length,
    (st.flags.get ⟨i, hf⟩ = true ↔
      ∃ k, cleanKey (pre.get ⟨i, hi⟩) = some k ∧
        ∃ j, ∃ hj : j < i, cleanKey (pre.get ⟨j, Nat.lt_trans hj hi⟩) = some k))

/-! ## Theorems -/

theorem alookup_mem {α β : Type} [DecidableEq α] :
    ∀ {l : List (α × β)} {k : α} {v : β}, alookup l k = some v → (k, v) ∈ l := by
  intro l
  induction l with
  | nil => intro k v h; simp [alookup] at h
  | cons p rest ih =>
    intro k v h
    obtain ⟨k', v'⟩ := p
    simp only [alookup] at h
    split at h
    · rename_i heq
      simp only [Option.some.injEq] at h
      simp [heq, h]
    · simp [ih h]

theorem map_id_of {α : Type} {f : α → α} :
    ∀ {s : List α}, (∀ c ∈ s, f c = c) → s.map f = s := by
  intro s
  induction s with
  | nil => intro _; rfl
  | cons c rest ih =>
    intro h
    simp only [List.map_cons]
    rw [h c (by simp), ih (fun x hx => h x (by simp [hx]))]

theorem filter_id_of {α : Type} {p : α → Bool} :
    ∀ {s : List α}, (∀ c ∈ s, p c = true) → s.filter p = s := by
  intro s
  induction s with
  | nil => intro _; rfl
  | cons c rest ih =>
    intro h
    rw [List.filter_cons_of_pos (h c (by simp)), ih (fun x hx => h x (by simp [hx]))]

theorem catMap_id {f : Char → List Char} :
    ∀ {s : List Char}, (∀ c ∈ s, f c = [c]) → catMap f s = s := by
  intro s
  induction s with
  | nil => intro _; rfl
  | cons c rest ih =>
    intro h
    simp only [catMap]
    rw [h c (by simp), ih (fun x hx => h x (by simp [hx]))]
    rfl

theorem mem_catMap {f : Char → List Char} :
    ∀ {s : List Char} {c : Char}, c ∈ catMap f s → ∃ d ∈ s, c ∈ f d := by
  intro s
  induction s with
  | nil => intro c h; simp [catMap] at h
  | cons d rest ih =>
    intro c h
    simp only [catMap, List.mem_append] at h
    rcases h with h | h
    · exact ⟨d, by simp, h⟩
    · obtain ⟨d', hd', hc⟩ := ih h
      exact ⟨d', by simp [hd'], hc⟩

/-! ### Stage identity lemmas for the normalizer -/

theorem htmlUnescapeGo_id :
    ∀ (n : Nat) (s : List Char), (∀ c ∈ s, c ≠ '&') → htmlUnescapeGo n s = s := by
  intro n s
  induction s generalizing n with
  | nil => intro _; cases n <;> rfl
  | cons c rest ih =>
    intro h
    cases n with
    | zero => rfl
    | succ m =>
      have hc : ¬c = '&' := h c (by simp)
      simp only [htmlUnescapeGo, if_neg hc]
      rw [ih m (fun x hx => h x (by simp [hx]))]

theorem htmlUnescape_id {s : List Char} (h : ∀ c ∈ s, c ≠ '&') : htmlUnescape s = s :=
  htmlUnescapeGo_id s.length s h

theorem urlUnquote_cons_ne {c : Char} {rest : List Char} (hc : c ≠ '%') :
    urlUnquote (c :: rest) = c :: urlUnquote rest := by
  rw [urlUnquote.eq_def]
  split
  · rename_i heq; exact absurd heq (by simp)
  · rename_i a b r heq
    obtain ⟨h1, -⟩ := List.cons_eq_cons.mp heq
    exact absurd h1 hc
  · rename_i c' rest' heq
    obtain ⟨h1, h2⟩ := List.cons_eq_cons.mp heq
    rw [h1, h2]

theorem urlUnquote_id : ∀ (s : List Char), (∀ c ∈ s, c ≠ '%') → urlUnquote s = s := by
  intro s
  induction s with
  | nil => intro _; rfl
  | cons c rest ih =>
    intro h
    rw [urlUnquote_cons_ne (h c (by simp)), ih (fun x hx => h x (by simp [hx]))]

theorem removeBraces_id {s : List Char} (h : ∀ c ∈ s, c ≠ lb ∧ c ≠ rb) :
    removeBraces s = s := by
  unfold removeBraces
  exact filter_id_of (fun c hc => by simp [h c hc])

theorem removeTagsGo_id :
    ∀ (n : Nat) (s : List Char), (∀ c ∈ s, c ≠ '<') → removeTagsGo n s = s := by
  intro n s
  induction s generalizing n with
  | nil => intro _; cases n <;> rfl
  | cons c rest ih =>
    intro h
    cases n with
    | zero => rfl
    | succ m =>
      have hc : ¬c = '<' := h c (by simp)
      simp only [removeTagsGo, if_neg hc]
      rw [ih m (fun x hx => h x (by simp [hx]))]

theorem removeTags_id {s : List Char} (h : ∀ c ∈ s, c ≠ '<') : removeTags s = s :=
  removeTagsGo_id s.length s h

theorem stripLatexCmdsGo_id :
    ∀ (n : Nat) (s : List Char), (∀ c ∈ s, c ≠ '\\') → stripLatexCmdsGo n s = s := by
  intro n s
  induction s generalizing n with
  | nil => intro _; cases n <;> rfl
  | cons c rest ih =>
    intro h
    cases n with
    | zero => rfl
    | succ m =>
      have hc : ¬c = '\\' := h c (by simp)
      simp only [stripLatexCmdsGo, if_neg hc]
      rw [ih m (fun x hx => h x (by simp [hx]))]

theorem stripLatexCmds_id {s : List Char} (h : ∀ c ∈ s, c ≠ '\\') : stripLatexCmds s = s :=
  stripLatexCmdsGo_id s.length s h

theorem replace2_cons_ne {a b r x : Char} {rest : List Char} (hx : x ≠ a) :
    replace2 a b r (x :: rest) = x :: replace2 a b r rest := by
  match rest with
  | [] => rfl
  | y :: rest2 =>
    rw [replace2.eq_def]
    split
    · rename_i heq; exact absurd heq (by simp)
    · rename_i x' heq
      obtain ⟨-, h2⟩ := List.cons_eq_cons.mp heq
      exact absurd h2 (by simp)
    · rename_i x' y' rest' heq
      obtain ⟨h1, h2⟩ := List.cons_eq_cons.mp heq
      obtain ⟨h3, h4⟩ := List.cons_eq_cons.mp h2
      subst h1; subst h3; subst h4
      rw [if_neg (fun hc => hx hc.1)]

theorem replace2_id {a b r : Char} :
    ∀ (s : List Char), (∀ c ∈ s, c ≠ a) → replace2 a b r s = s := by
  intro s
  induction s with
  | nil => intro _; rfl
  | cons x rest ih =>
    intro h
    rw [replace2_cons_ne (h x (by simp)), ih (fun c hc => h c (by simp [hc]))]

theorem strip_latex_id {s : List Char} (h : ∀ c ∈ s, c ≠ '\\') : strip_latex s = s := by
  unfold strip_latex
  rw [stripLatexCmds_id h, replace2_id s h, replace2_id s h, replace2_id s h]

theorem fold_accents_id {s : List Char}
    (h : ∀ c ∈ s, nfkdD c = [c] ∧ isCombining c = false) : fold_accents s = s := by
  unfold fold_accents
  rw [catMap_id (fun c hc => (h c hc).1)]
  exact filter_id_of (fun c hc => by simp [(h c hc).2])

theorem pyLower_id {s : List Char} (h : ∀ c ∈ s, pyLower1 c = c) : pyLower s = s :=
  map_id_of h

theorem punctToSpace_id {s : List Char} (h : ∀ c ∈ s, c ∉ punctSet) :
    punctToSpace s = s := by
  unfold punctToSpace
  exact map_id_of (fun c hc => by simp [h c hc])

/-! ### Whitespace-token lemmas for `collapseWs` -/

theorem wsTokensAux_facts :
    ∀ (s acc : List Char), (∀ c ∈ acc, isPySpace c = false) →
    ∀ t ∈ wsTokensAux s acc, t ≠ [] ∧ ∀ c ∈ t, isPySpace c = false ∧ (c ∈ s ∨ c ∈ acc) := by
  intro s
  induction s with
  | nil =>
    intro acc hacc t ht
    simp only [wsTokensAux] at ht
    split at ht
    · simp at ht
    · rename_i hne
      simp only [List.mem_singleton] at ht
      subst ht
      refine ⟨by simpa using hne, fun c hc => ?_⟩
      rw [List.mem_reverse] at hc
      exact ⟨hacc c hc, Or.inr hc⟩
  | cons c0 rest ih =>
    intro acc hacc t ht
    simp only [wsTokensAux] at ht
    split at ht
    · split at ht
      · obtain ⟨h1, h2⟩ := ih [] (by simp) t ht
        exact ⟨h1, fun c hc => ⟨(h2 c hc).1, by
          rcases (h2 c hc).2 with h | h
          · exact Or.inl (by simp [h])
          · simp at h⟩⟩
      · rcases List.mem_cons.mp ht with h | h
        · subst h
          rename_i hne
          refine ⟨by simpa using hne, fun c hc => ?_⟩
          rw [List.mem_reverse] at hc
          exact ⟨hacc c hc, Or.inr hc⟩
        · obtain ⟨h1, h2⟩ := ih [] (by simp) t h
          exact ⟨h1, fun c hc => ⟨(h2 c hc).1, by
            rcases (h2 c hc).2 with h' | h'
            · exact Or.inl (by simp [h'])
            · simp at h'⟩⟩
    · rename_i hns
      obtain ⟨h1, h2⟩ := ih (c0 :: acc)
        (fun x hx => by
          rcases List.mem_cons.mp hx with h | h
          · subst h; simpa using hns
          · exact hacc x h) t ht
      refine ⟨h1, fun c hc => ⟨(h2 c hc).1, ?_⟩⟩
      rcases (h2 c hc).2 with h | h
      · exact Or.inl (by simp [h])
      · rcases List.mem_cons.mp h with h' | h'
        · exact Or.inl (by simp [h'])
        · exact Or.inr h'

theorem wsTokensAux_nospace :
    ∀ (t acc : List Char), (∀ c ∈ t, isPySpace c = false) →
    wsTokensAux t acc = if acc.reverse ++ t = [] then [] else [acc.reverse ++ t] := by
  intro t
  induction t with
  | nil =>
    intro acc _
    simp only [wsTokensAux, List.append_nil]
    by_cases h : acc = []
    · simp [h]
    · rw [if_neg h, if_neg (by simpa using h)]
  | cons c rest ih =>
    intro acc h
    have hc : isPySpace c = false := h c (by simp)
    simp only [wsTokensAux, hc, Bool.false_eq_true, if_false]
    rw [ih (c :: acc) (fun x hx => h x (by simp [hx]))]
    simp

theorem wsTokensAux_token_space :
    ∀ (t : List Char), (∀ c ∈ t, isPySpace c = false) →
    ∀ (acc w : List Char), (t = [] → acc ≠ []) →
    wsTokensAux (t ++ ' ' :: w) acc = (acc.reverse ++ t) :: wsTokensAux w [] := by
  intro t
  induction t with
  | nil =>
    intro _ acc w hne
    have hacc : ¬acc = [] := hne rfl
    simp only [List.nil_append, wsTokensAux]
    rw [if_pos (by decide), if_neg hacc]
    simp
  | cons c rest ih =>
    intro h acc w _
    have hc : isPySpace c = false := h c (by simp)
    simp only [List.cons_append, wsTokensAux, hc, Bool.false_eq_true, if_false]
    show wsTokensAux (rest ++ ' ' :: w) (c :: acc) = (acc.reverse ++ c :: rest) :: wsTokensAux w []
    rw [ih (fun x hx => h x (by simp [hx])) (c :: acc) w (by simp)]
    simp

theorem wsTokens_joinSp :
    ∀ (ts : List (List Char)),
    (∀ t ∈ ts, t ≠ [] ∧ ∀ c ∈ t, isPySpace c = false) →
    wsTokens (joinSp ts) = ts := by
  intro ts
  induction ts with
  | nil => intro _; rfl
  | cons t rest ih =>
    intro h
    match rest with
    | [] =>
      obtain ⟨h1, h2⟩ := h t (by simp)
      simp only [joinSp, wsTokens]
      rw [wsTokensAux_nospace t [] h2]
      simp [h1]
    | t2 :: rest2 =>
      obtain ⟨h1, h2⟩ := h t (by simp)
      have hj : joinSp (t :: t2 :: rest2) = t ++ ' ' :: joinSp (t2 :: rest2) := rfl
      show wsTokensAux (joinSp (t :: t2 :: rest2)) [] = t :: t2 :: rest2
      rw [hj, wsTokensAux_token_space t h2 [] (joinSp (t2 :: rest2)) (fun ht => absurd ht h1)]
      simp only [List.reverse_nil, List.nil_append, List.cons.injEq, true_and]
      exact ih (fun x hx => h x (by simp [hx]))

theorem collapseWs_idem (s : List Char) : collapseWs (collapseWs s) = collapseWs s := by
  show joinSp (wsTokens (joinSp (wsTokens s))) = joinSp (wsTokens s)
  rw [wsTokens_joinSp (wsTokens s) (fun t ht => by
    obtain ⟨h1, h2⟩ := wsTokensAux_facts s [] (by simp) t ht
    exact ⟨h1, fun c hc => (h2 c hc).1⟩)]

theorem mem_joinSp :
    ∀ {ts : List (List Char)} {c : Char}, c ∈ joinSp ts → c = ' ' ∨ ∃ t ∈ ts, c ∈ t := by
  intro ts
  induction ts with
  | nil => intro c h; simp [joinSp] at h
  | cons t rest ih =>
    intro c h
    match rest with
    | [] => exact Or.inr ⟨t, by simp, h⟩
    | t2 :: rest2 =>
      simp only [joinSp, List.mem_append, List.mem_cons] at h
      rcases h with h | h | h
      · exact Or.inr ⟨t, by simp, h⟩
      · exact Or.inl h
      · rcases ih h with h' | ⟨t', ht', hc⟩
        · exact Or.inl h'
        · exact Or.inr ⟨t', by simp [ht'], hc⟩

theorem mem_collapseWs {s : List Char} {c : Char} (h : c ∈ collapseWs s) :
    c = ' ' ∨ (c ∈ s ∧ isPySpace c = false) := by
  rcases mem_joinSp h with h' | ⟨t, ht, hc⟩
  · exact Or.inl h'
  · obtain ⟨-, h2⟩ := wsTokensAux_facts s [] (by simp) t ht
    rcases (h2 c hc).2 with h3 | h3
    · exact Or.inr ⟨h3, (h2 c hc).1⟩
    · simp at h3

/-! ### Character tracking through the normalizer stages -/

theorem dropAfterGt_subset : ∀ {s r : List Char}, dropAfterGt s = some r → ∀ c ∈ r, c ∈ s := by
  intro s
  induction s with
  | nil => intro r h; simp [dropAfterGt] at h
  | cons x rest ih =>
    intro r h c hc
    simp only [dropAfterGt] at h
    split at h
    · simp only [Option.some.injEq] at h; subst h; simp [hc]
    · simp [ih h c hc]

theorem mem_removeTagsGo :
    ∀ (n : Nat) (s : List Char) (c : Char), c ∈ removeTagsGo n s → c ∈ s ∨ c = ' ' := by
  intro n
  induction n with
  | zero => intro s c h; exact Or.inl h
  | succ m ih =>
    intro s c h
    match s with
    | [] => simp [removeTagsGo] at h
    | x :: rest =>
      simp only [removeTagsGo] at h
      split at h
      · rename_i hx
        subst hx
        split at h
        · rename_i rest' hr
          rcases List.mem_cons.mp h with h' | h'
          · exact Or.inr h'
          · rcases ih rest' c h' with h'' | h''
            · exact Or.inl (by simp [dropAfterGt_subset hr c h''])
            · exact Or.inr h''
        · rcases List.mem_cons.mp h with h' | h'
          · exact Or.inl (by simp [h'])
          · rcases ih rest c h' with h'' | h''
            · exact Or.inl (by simp [h''])
            · exact Or.inr h''
      · rcases List.mem_cons.mp h with h' | h'
        · exact Or.inl (by simp [h'])
        · rcases ih rest c h' with h'' | h''
          · exact Or.inl (by simp [h''])
          · exact Or.inr h''

theorem latexArgAux_subset : ∀ {s r : List Char}, latexArgAux s = some r → ∀ c ∈ r, c ∈ s := by
  intro s
  induction s with
  | nil => intro r h; simp [latexArgAux] at h
  | cons x rest ih =>
    intro r h c hc
    simp only [latexArgAux] at h
    split at h
    · simp only [Option.some.injEq] at h; subst h; simp [hc]
    · split at h
      · exact absurd h (by simp)
      · simp [ih h c hc]

theorem latexArg_subset : ∀ {s r : List Char}, latexArg s = some r → ∀ c ∈ r, c ∈ s := by
  intro s r h c hc
  match s with
  | [] => simp [latexArg] at h
  | x :: rest =>
    simp only [latexArg] at h
    split at h
    · simp [latexArgAux_subset h c hc]
    · exact absurd h (by simp)

theorem mem_stripLatexCmdsGo :
    ∀ (n : Nat) (s : List Char) (c : Char), c ∈ stripLatexCmdsGo n s → c ∈ s ∨ c = ' ' := by
  intro n
  induction n with
  | zero => intro s c h; exact Or.inl h
  | succ m ih =>
    intro s c h
    match s with
    | [] => simp [stripLatexCmdsGo] at h
    | x :: rest =>
      simp only [stripLatexCmdsGo] at h
      split at h
      · rename_i hx
        subst hx
        split at h
        · rcases List.mem_cons.mp h with h' | h'
          · exact Or.inl (by simp [h'])
          · rcases ih rest c h' with h'' | h''
            · exact Or.inl (by simp [h''])
            · exact Or.inr h''
        · split at h
          · rename_i r hr
            rcases List.mem_cons.mp h with h' | h'
            · exact Or.inr h'
            · rcases ih r c h' with h'' | h''
              · have : c ∈ rest.drop (rest.takeWhile isAsciiLetter).length :=
                  latexArg_subset hr c h''
                exact Or.inl (by simp [List.mem_of_mem_drop this])
              · exact Or.inr h''
          · rcases List.mem_cons.mp h with h' | h'
            · exact Or.inr h'
            · rcases ih _ c h' with h'' | h''
              · exact Or.inl (by simp [List.mem_of_mem_drop h''])
              · exact Or.inr h''
      · rcases List.mem_cons.mp h with h' | h'
        · exact Or.inl (by simp [h'])
        · rcases ih rest c h' with h'' | h''
          · exact Or.inl (by simp [h''])
          · exact Or.inr h''

theorem mem_replace2_fuel {a b r : Char} :
    ∀ (n : Nat) (s : List Char), s.length ≤ n →
    ∀ c ∈ replace2 a b r s, c ∈ s ∨ c = r := by
  intro n
  induction n with
  | zero =>
    intro s hs c h
    rw [List.length_eq_zero.mp (Nat.le_zero.mp hs)] at h ⊢
    exact Or.inl h
  | succ m ih =>
    intro s hs c h
    match s with
    | [] => exact Or.inl h
    | [x] => exact Or.inl h
    | x :: y :: rest2 =>
      by_cases hab : x = a ∧ y = b
      · rw [show replace2 a b r (x :: y :: rest2) = r :: replace2 a b r rest2 from by
          simp [replace2, hab]] at h
        rcases List.mem_cons.mp h with h' | h'
        · exact Or.inr h'
        · rcases ih rest2 (by simp at hs; omega) c h' with h'' | h''
          · exact Or.inl (by simp [h''])
          · exact Or.inr h''
      · rw [show replace2 a b r (x :: y :: rest2) = x :: replace2 a b r (y :: rest2) from by
          simp [replace2, hab]] at h
        rcases List.mem_cons.mp h with h' | h'
        · exact Or.inl (by simp [h'])
        · rcases ih (y :: rest2) (by simp at hs ⊢; omega) c h' with h'' | h''
          · exact Or.inl (by simp [h''])
          · exact Or.inr h''

theorem mem_replace2 {a b r : Char} (s : List Char) (c : Char)
    (h : c ∈ replace2 a b r s) : c ∈ s ∨ c = r :=
  mem_replace2_fuel s.length s (Nat.le_refl _) c h

/-! ### Table stability facts and the niceness of `norm_text` output -/

theorem nfkd_out_stable : ∀ (d x : Char), x ∈ nfkdD d →
    nfkdD x = [x] ∧ (d ≠ lb → d ≠ rb → x ≠ lb ∧ x ≠ rb) := by
  intro d x hx
  unfold nfkdD at hx
  cases h : alookup nfkdTable d with
  | none =>
    rw [h] at hx
    simp only [Option.getD_none, List.mem_singleton] at hx
    subst hx
    exact ⟨by unfold nfkdD; rw [h]; rfl, fun h1 h2 => ⟨h1, h2⟩⟩
  | some l =>
    rw [h] at hx
    simp only [Option.getD_some] at hx
    have hmem := alookup_mem h
    have hfact : ∀ p ∈ nfkdTable, ∀ x ∈ p.2,
        alookup nfkdTable x = none ∧ x ≠ lb ∧ x ≠ rb := by decide
    obtain ⟨hnone, hb1, hb2⟩ := hfact (d, l) hmem x hx
    exact ⟨by unfold nfkdD; rw [hnone]; rfl, fun _ _ => ⟨hb1, hb2⟩⟩

theorem pyLower1_idem (c : Char) : pyLower1 (pyLower1 c) = pyLower1 c := by
  cases h : alookup lowerTable c with
  | none =>
    have hc : pyLower1 c = c := by unfold pyLower1; rw [h]; rfl
    rw [hc]
    exact hc
  | some v =>
    have hc : pyLower1 c = v := by unfold pyLower1; rw [h]; rfl
    have hfact : ∀ p ∈ lowerTable, pyLower1 p.2 = p.2 := by decide
    rw [hc]
    exact hfact (c, v) (alookup_mem h)

theorem pyLower1_keeps (c : Char) (h1 : nfkdD c = [c]) (h2 : isCombining c = false)
    (h3 : c ≠ lb) (h4 : c ≠ rb) :
    nfkdD (pyLower1 c) = [pyLower1 c] ∧ isCombining (pyLower1 c) = false ∧
    pyLower1 c ≠ lb ∧ pyLower1 c ≠ rb := by
  cases h : alookup lowerTable c with
  | none =>
    have hc : pyLower1 c = c := by unfold pyLower1; rw [h]; rfl
    rw [hc]
    exact ⟨h1, h2, h3, h4⟩
  | some v =>
    have hc : pyLower1 c = v := by unfold pyLower1; rw [h]; rfl
    have hfact : ∀ p ∈ lowerTable, nfkdD p.1 = [p.1] →
        nfkdD p.2 = [p.2] ∧ isCombining p.2 = false ∧ p.2 ≠ lb ∧ p.2 ≠ rb := by decide
    rw [hc]
    exact hfact (c, v) (alookup_mem h) h1

theorem fold_accents_stable {s : List Char} {c : Char} (h : c ∈ fold_accents s) :
    nfkdD c = [c] ∧ isCombining c = false ∧
    ((∀ d ∈ s, d ≠ lb ∧ d ≠ rb) → c ≠ lb ∧ c ≠ rb) := by
  unfold fold_accents at h
  obtain ⟨hmem, hcomb⟩ := List.mem_filter.mp h
  obtain ⟨d, hd, hcd⟩ := mem_catMap hmem
  obtain ⟨hstab, hbr⟩ := nfkd_out_stable d c hcd
  refine ⟨hstab, by simpa using hcomb, fun hs => hbr (hs d hd).1 (hs d hd).2⟩

theorem strip_latex_noBrace {q : List Char} (hq : ∀ c ∈ q, c ≠ lb ∧ c ≠ rb) :
    ∀ c ∈ strip_latex q, c ≠ lb ∧ c ≠ rb := by
  intro c hc
  unfold strip_latex at hc
  rcases mem_replace2 _ c hc with hc | hc
  · rcases mem_replace2 _ c hc with hc | hc
    · rcases mem_replace2 _ c hc with hc | hc
      · rcases mem_stripLatexCmdsGo q.length q c hc with hc | hc
        · exact hq c hc
        · subst hc; exact ⟨by decide, by decide⟩
      · subst hc; exact ⟨by decide, by decide⟩
    · subst hc; exact ⟨by decide, by decide⟩
  · subst hc; exact ⟨by decide, by decide⟩

theorem removeTags_noBrace {q : List Char} (hq : ∀ c ∈ q, c ≠ lb ∧ c ≠ rb) :
    ∀ c ∈ removeTags q, c ≠ lb ∧ c ≠ rb := by
  intro c hc
  rcases mem_removeTagsGo q.length q c hc with hc | hc
  · exact hq c hc
  · subst hc; exact ⟨by decide, by decide⟩

theorem removeBraces_noBrace (q : List Char) : ∀ c ∈ removeBraces q, c ≠ lb ∧ c ≠ rb := by
  intro c hc
  unfold removeBraces at hc
  have := (List.mem_filter.mp hc).2
  simpa using this

/-- Every character of a `norm_text` output is nice. -/
theorem norm_text_nice (s : List Char) : ∀ c ∈ norm_text s, niceChar c := by
  intro c hc
  have hzb : ∀ d ∈ strip_latex (removeTags (removeBraces (urlUnquote (htmlUnescape s)))),
      d ≠ lb ∧ d ≠ rb :=
    strip_latex_noBrace (removeTags_noBrace (removeBraces_noBrace _))
  have hc' : c ∈ collapseWs (punctToSpace (pyLower (fold_accents
      (strip_latex (removeTags (removeBraces (urlUnquote (htmlUnescape s)))))))) := hc
  rcases mem_collapseWs hc' with hsp | ⟨hmem, hns⟩
  · subst hsp
    exact ⟨by decide, by decide, by decide, by decide, by decide, by decide,
           by decide, by decide, by decide, by decide⟩
  · unfold punctToSpace at hmem
    obtain ⟨d, hd, hdc⟩ := List.mem_map.mp hmem
    by_cases hp : d ∈ punctSet
    · rw [if_pos hp] at hdc
      subst hdc
      exact absurd (by decide : isPySpace ' ' = true) (by simp [hns])
    · rw [if_neg hp] at hdc
      subst hdc
      obtain ⟨e, he, hed⟩ := List.mem_map.mp hd
      obtain ⟨hst, hcm, hbr⟩ := fold_accents_stable he
      obtain ⟨hb1, hb2⟩ := hbr hzb
      obtain ⟨k1, k2, k3, k4⟩ := pyLower1_keeps e hst hcm hb1 hb2
      rw [hed] at k1 k2 k3 k4
      have hidem : pyLower1 d = d := by
        rw [show d = pyLower1 e from hed.symm]
        exact pyLower1_idem e
      refine ⟨?_, ?_, k3, k4, ?_, ?_, k1, k2, hidem, hp⟩
      · intro hcon; subst hcon; exact hp (by decide)
      · intro hcon; subst hcon; exact hp (by decide)
      · intro hcon; subst hcon; exact hp (by decide)
      · intro hcon; subst hcon; exact hp (by decide)

/-- C4: text normalization is idempotent: for every string `x`,
`_norm_text(_norm_text(x)) = _norm_text(x)`. -/
theorem c4_norm_text_idempotent (s : List Char) : norm_text (norm_text s) = norm_text s := by
  have hn : ∀ c ∈ norm_text s, niceChar c := norm_text_nice s
  conv_lhs => rw [norm_text]
  rw [htmlUnescape_id (fun c hc => (hn c hc).1),
      urlUnquote_id _ (fun c hc => (hn c hc).2.1),
      removeBraces_id (fun c hc => ⟨(hn c hc).2.2.1, (hn c hc).2.2.2.1⟩),
      removeTags_id (fun c hc => (hn c hc).2.2.2.2.1),
      strip_latex_id (fun c hc => (hn c hc).2.2.2.2.2.1),
      fold_accents_id (fun c hc => ⟨(hn c hc).2.2.2.2.2.2.1, (hn c hc).2.2.2.2.2.2.2.1⟩),
      pyLower_id (fun c hc => (hn c hc).2.2.2.2.2.2.2.2.1),
      punctToSpace_id (fun c hc => (hn c hc).2.2.2.2.2.2.2.2.2)]
  exact collapseWs_idem (punctToSpace (pyLower (fold_accents
    (strip_latex (removeTags (removeBraces (urlUnquote (htmlUnescape s))))))))

/-! ### C5: DOI normalization round-trip -/

/-- C5: `_normalize_doi("https://doi.org/10.1000/XYZ123.")` returns exactly
`"10.1000/xyz123"` — the resolver-URL prefix is stripped, the result is
lowercased and loses the trailing period — and the returned value still
matches the DOI shape `DOI_RE` (`10.` + 4–9 digits + `/` + non-whitespace). -/
theorem c5_doi_round_trip :
    normalize_doi (cs "https://doi.org/10.1000/XYZ123.") = some (cs "10.1000/xyz123") ∧
    (doiMatchAt none (cs "10.1000/xyz123")).isSome = true :=
  ⟨by decide, by decide⟩

/-! ### C1: the dedupe-key strategy cascade -/

/-- C1: `build_dedupe_key` is a fixed-priority cascade — normalized DOI first
(`_find_normalized_doi`, i.e. the `doi` field with `url` fallback); else
normalized title + 4-digit year when a truthy title exists and a 4-digit year
is found in the year field; else normalized title alone; else normalized
abstract when no title exists; else the FALLBACK strategy on the normalized
whole record.  The first strategy that yields a usable key wins, and two
records with the same normalized DOI always get the same key, regardless of
their titles. -/
theorem c1_dedupe_key_cascade (e : List Char) :
    (∀ d, truthy (find_normalized_doi e) = some d → build_dedupe_key e = (cs "DOI", d)) ∧
    (truthy (find_normalized_doi e) = none → ∀ t, truthy (get_field e (cs "title")) = some t →
      (∀ y yr, truthy (get_field e (cs "year")) = some y → find4Digits y = some yr →
        build_dedupe_key e = (cs "TITLE_YEAR", norm_text t ++ cs "::" ++ yr)) ∧
      (∀ y, truthy (get_field e (cs "year")) = some y → find4Digits y = none →
        build_dedupe_key e = (cs "TITLE", norm_text t)) ∧
      (truthy (get_field e (cs "year")) = none →
        build_dedupe_key e = (cs "TITLE", norm_text t))) ∧
    (truthy (find_normalized_doi e) = none → truthy (get_field e (cs "title")) = none →
      (∀ a, truthy (get_field e (cs "abstract")) = some a →
        build_dedupe_key e = (cs "ABSTRACT", norm_text a)) ∧
      (truthy (get_field e (cs "abstract")) = none →
        build_dedupe_key e = (cs "FALLBACK", norm_text e))) ∧
    (∀ e2 d, truthy (find_normalized_doi e) = some d →
      truthy (find_normalized_doi e2) = some d →
      build_dedupe_key e = build_dedupe_key e2) := by
  refine ⟨?_, ?_, ?_, ?_⟩
  · intro d h
    simp [build_dedupe_key, h]
  · intro h t ht
    refine ⟨?_, ?_, ?_⟩
    · intro y yr hy hyr
      simp [build_dedupe_key, h, ht, hy, hyr]
    · intro y hy hyr
      simp [build_dedupe_key, h, ht, hy, hyr]
    · intro hy
      simp [build_dedupe_key, h, ht, hy]
  · intro h ht
    refine ⟨?_, ?_⟩
    · intro a ha
      simp [build_dedupe_key, h, ht, ha]
    · intro ha
      simp [build_dedupe_key, h, ht, ha]
  · intro e2 d h h2
    simp [build_dedupe_key, h, h2]

/-- Witness for C1 at concrete records: a record with both a DOI and a title
gets the DOI key, and it lands in the same bucket as a record with the same
DOI but a completely different title. -/
theorem c1_dedupe_key_cascade_witness :
    build_dedupe_key (cs "@article\x7ba1,\n doi = \x7b10.1234/abc\x7d,\n title = \x7bAlpha\x7d\n\x7d") =
      (cs "DOI", cs "10.1234/abc") ∧
    build_dedupe_key (cs "@article\x7ba1,\n doi = \x7b10.1234/abc\x7d,\n title = \x7bAlpha\x7d\n\x7d") =
      build_dedupe_key
        (cs "@article\x7ba2,\n doi = \x7b10.1234/abc\x7d,\n title = \x7bTotally Different\x7d\n\x7d") := by
  constructor
  · exact (c1_dedupe_key_cascade
      (cs "@article\x7ba1,\n doi = \x7b10.1234/abc\x7d,\n title = \x7bAlpha\x7d\n\x7d")).1
      (cs "10.1234/abc") (by decide)
  · exact (c1_dedupe_key_cascade
      (cs "@article\x7ba1,\n doi = \x7b10.1234/abc\x7d,\n title = \x7bAlpha\x7d\n\x7d")).2.2.2
      (cs "@article\x7ba2,\n doi = \x7b10.1234/abc\x7d,\n title = \x7bTotally Different\x7d\n\x7d")
      (cs "10.1234/abc") (by decide) (by decide)

/-! ### C6/C7: the `Keywords.py` value decoder -/

theorem readBracedAux_balanced :
    ∀ (w : List Char) (d : Nat) (rest : List Char), braceBal d w = true →
    readBracedAux (d + 1) (w ++ rb :: rest) = (w, rest) := by
  intro w
  induction w with
  | nil =>
    intro d rest h
    simp only [braceBal, decide_eq_true_eq] at h
    subst h
    simp [readBracedAux]
    decide
  | cons c w' ih =>
    intro d rest h
    simp only [braceBal] at h
    by_cases hlb : c = lb
    · rw [if_pos hlb] at h
      subst hlb
      rw [List.cons_append]
      simp only [readBracedAux, if_pos rfl]
      rw [ih (d + 1) rest h]
      simp
    · rw [if_neg hlb] at h
      by_cases hrb : c = rb
      · rw [if_pos hrb] at h
        simp only [Bool.and_eq_true, decide_eq_true_eq] at h
        obtain ⟨hd, h'⟩ := h
        subst hrb
        rw [List.cons_append]
        simp only [readBracedAux, if_neg (by decide : ¬rb = lb), if_pos rfl,
          if_neg (by omega : ¬d + 1 = 1)]
        have h2 : d + 1 - 1 = (d - 1) + 1 := by omega
        rw [h2, ih (d - 1) rest h']
        simp
      · rw [if_neg hrb] at h
        rw [List.cons_append]
        simp only [readBracedAux, if_neg hlb, if_neg hrb]
        rw [ih d rest h]

/-- Counterexample to C6 as stated: `get_field` in `Unique.py` is also a
brace-delimited value decoder, but its lazy regex stops at the first closing
brace, so the nested level of `{a {b} c}` is not preserved: it returns
`a {b`, not `a {b} c`. -/
theorem c6_counterexample :
    get_field (cs "@a\x7bx,\n title = \x7ba \x7bb\x7d c\x7d\n\x7d") (cs "title") =
      some (cs "a \x7bb") ∧
    cs "a \x7bb" ≠ cs "a \x7bb\x7d c" :=
  ⟨by decide, by decide⟩

/-- C6 (amended): the `Keywords.py` value decoder `read_braced` strips only the
outermost brace pair and preserves every inner brace level verbatim — for any
balanced inner text `w`, decoding `{w}` yields exactly `w` and consumes through
the matching closer; `Unique.py`'s `get_field`, by contrast, truncates a braced
value at the first closing brace. -/
theorem c6_brace_preservation :
    (∀ (w rest : List Char), braceBal 0 w = true →
      read_braced (lb :: (w ++ rb :: rest)) = (w, rest)) ∧
    get_field (cs "@a\x7bx,\n title = \x7ba \x7bb\x7d c\x7d\n\x7d") (cs "title") =
      some (cs "a \x7bb") := by
  constructor
  · intro w rest h
    have hu : read_braced (lb :: (w ++ rb :: rest)) = readBracedAux 1 (w ++ rb :: rest) := by
      simp [read_braced]
    rw [hu]
    exact readBracedAux_balanced w 0 rest h
  · decide

/-- Witness for C6 at a concrete nested value: `{a {b} c},x` decodes to
`a {b} c` with the rest `,x`. -/
theorem c6_brace_preservation_witness :
    braceBal 0 (cs "a \x7bb\x7d c") = true ∧
    read_braced (lb :: (cs "a \x7bb\x7d c" ++ rb :: cs ",x")) = (cs "a \x7bb\x7d c", cs ",x") :=
  ⟨by decide, c6_brace_preservation.1 (cs "a \x7bb\x7d c") (cs ",x") (by decide)⟩

theorem readBracedAux_unterminated :
    ∀ (w : List Char) (d : Nat), bracedCloses d w = false →
    readBracedAux d w = (w, []) := by
  intro w
  induction w with
  | nil => intro d _; rfl
  | cons c w' ih =>
    intro d h
    simp only [bracedCloses] at h
    by_cases hlb : c = lb
    · rw [if_pos hlb] at h
      subst hlb
      simp only [readBracedAux, if_pos rfl]
      rw [ih (d + 1) h]
      simp
    · rw [if_neg hlb] at h
      by_cases hrb : c = rb
      · rw [if_pos hrb] at h
        subst hrb
        simp only [readBracedAux, if_neg (by decide : ¬rb = lb), if_pos rfl]
        split at h
        · exact absurd h (by simp)
        · rename_i hd
          rw [if_neg hd, ih (d - 1) h]
          simp
      · rw [if_neg hrb] at h
        simp only [readBracedAux, if_neg hlb, if_neg hrb]
        rw [ih d h]

theorem readQuotedAux_unterminated :
    ∀ (w : List Char) (esc : Bool), quotedCloses esc w = false →
    (readQuotedAux esc w).2 = [] := by
  intro w
  induction w with
  | nil => intro esc _; cases esc <;> rfl
  | cons c w' ih =>
    intro esc h
    cases esc with
    | true =>
      simp only [quotedCloses, if_pos rfl] at h
      simp only [readQuotedAux, if_pos rfl]
      exact ih false h
    | false =>
      by_cases hbs : c = '\\'
      · simp only [quotedCloses, Bool.false_eq_true, if_false, if_pos hbs] at h
        simp only [readQuotedAux, Bool.false_eq_true, if_false, if_pos hbs]
        exact ih true h
      · by_cases hq : c = '"'
        · simp only [quotedCloses, Bool.false_eq_true, if_false, if_neg hbs, if_pos hq] at h
          simp at h
        · simp only [quotedCloses, Bool.false_eq_true, if_false, if_neg hbs, if_neg hq] at h
          simp only [readQuotedAux, Bool.false_eq_true, if_false, if_neg hbs, if_neg hq]
          exact ih false h

theorem readQuotedAux_plain :
    ∀ (w : List Char), (∀ c ∈ w, c ≠ '\\' ∧ c ≠ '"') →
    readQuotedAux false w = (w, []) := by
  intro w
  induction w with
  | nil => intro _; rfl
  | cons c w' ih =>
    intro h
    obtain ⟨h1, h2⟩ := h c (by simp)
    simp only [readQuotedAux, Bool.false_eq_true, if_false, if_neg h1, if_neg h2]
    rw [ih (fun x hx => h x (by simp [hx]))]

/-- C7: the value decoder is total and never raises.  A brace-delimited value
whose closing delimiter never appears decodes to all the remaining text and
consumes the whole input (rest `[]`, i.e. position = input length); an
unterminated quote-delimited value likewise consumes the whole input, and when
the remaining text has no escapes it decodes verbatim; `read_value` at an
exhausted position returns empty text; and `read_value` on an unterminated
braced value returns the stripped remaining text with the whole input
consumed. -/
theorem c7_decoder_total :
    (∀ w : List Char, bracedCloses 1 w = false → read_braced (lb :: w) = (w, [])) ∧
    (∀ w : List Char, quotedCloses false w = false → (read_quoted ('"' :: w)).2 = []) ∧
    (∀ w : List Char, (∀ c ∈ w, c ≠ '\\' ∧ c ≠ '"') → read_quoted ('"' :: w) = (w, [])) ∧
    read_value [] = ([], [], []) ∧
    (∀ w : List Char, bracedCloses 1 w = false →
      read_value (lb :: w) = (pyStrip w, lb :: w, [])) := by
  refine ⟨?_, ?_, ?_, rfl, ?_⟩
  · intro w h
    have hu : read_braced (lb :: w) = readBracedAux 1 w := by simp [read_braced]
    rw [hu]
    exact readBracedAux_unterminated w 1 h
  · intro w h
    have hu : read_quoted ('"' :: w) = readQuotedAux false w := by simp [read_quoted]
    rw [hu]
    exact readQuotedAux_unterminated w false h
  · intro w h
    have hu : read_quoted ('"' :: w) = readQuotedAux false w := by simp [read_quoted]
    rw [hu]
    exact readQuotedAux_plain w h
  · intro w h
    have hrb : read_braced (lb :: w) = (w, []) := by
      have hu : read_braced (lb :: w) = readBracedAux 1 w := by simp [read_braced]
      rw [hu]
      exact readBracedAux_unterminated w 1 h
    have h1 : readValueGo (w.length + 1) (lb :: w) [] =
        (match (read_braced (lb :: w)).2.dropWhile isPySpace with
         | '#' :: t4 => readValueGo w.length t4 ([] ++ [(read_braced (lb :: w)).1])
         | ',' :: t4 => ([] ++ [(read_braced (lb :: w)).1], some t4)
         | t3 => ([] ++ [(read_braced (lb :: w)).1], some t3)) := rfl
    rw [hrb] at h1
    simp only [List.dropWhile_nil, List.nil_append] at h1
    simp only [read_value, List.length_cons]
    rw [h1]
    simp [pyStrip]

/-- Witness for C7 at concrete inputs: the unterminated braced value `{ab c`
decodes to `ab c` consuming everything, the unterminated quoted value `"ab c`
decodes to `ab c` consuming everything, and `read_value` consumes the whole
unterminated braced input. -/
theorem c7_decoder_total_witness :
    read_braced (lb :: cs "ab c") = (cs "ab c", []) ∧
    read_quoted ('"' :: cs "ab c") = (cs "ab c", []) ∧
    read_value (lb :: cs "ab c") = (cs "ab c", lb :: cs "ab c", []) := by
  refine ⟨c7_decoder_total.1 (cs "ab c") (by decide), ?_, ?_⟩
  · exact c7_decoder_total.2.2.1 (cs "ab c") (by decide)
  · have := c7_decoder_total.2.2.2.2 (cs "ab c") (by decide)
    rw [this]
    decide

/-! ### C3: tokenizer behaviour on never-balancing candidates -/

theorem scanBalanced_length {oc cc : Char} :
    ∀ (r : List Char) (d : Nat) (inside after : List Char),
    scanBalanced oc cc d r = some (inside, after) → after.length < r.length := by
  intro r
  induction r with
  | nil => intro d inside after h; simp [scanBalanced] at h
  | cons c r' ih =>
    intro d inside after h
    simp only [scanBalanced] at h
    split at h
    · obtain ⟨p, hp, hrw⟩ := Option.map_eq_some'.mp h
      have hlt := ih (d + 1) p.1 p.2 (by rw [hp])
      injection hrw with h1 h2
      subst h2
      exact Nat.lt_trans hlt (by simp)
    · split at h
      · split at h
        · simp only [Option.some.injEq, Prod.mk.injEq] at h
          rw [show after = r' from h.2.symm]
          simp
        · obtain ⟨p, hp, hrw⟩ := Option.map_eq_some'.mp h
          have hlt := ih (d - 1) p.1 p.2 (by rw [hp])
          injection hrw with h1 h2
          subst h2
          exact Nat.lt_trans hlt (by simp)
      · obtain ⟨p, hp, hrw⟩ := Option.map_eq_some'.mp h
        have hlt := ih d p.1 p.2 (by rw [hp])
        injection hrw with h1 h2
        subst h2
        exact Nat.lt_trans hlt (by simp)

theorem matchHeadA_length :
    ∀ (s hdr ty : List Char) (oc : Char) (rest : List Char),
    matchHeadA s = some (hdr, ty, oc, rest) → rest.length < s.length := by
  intro s hdr ty oc rest h
  rw [matchHeadA.eq_def] at h
  split at h
  · rename_i t
    simp only at h
    split at h
    · rename_i c t2 heq
      split at h
      · split at h
        · rename_i d r heq2
          split at h
          · simp only [Option.some.injEq, Prod.mk.injEq] at h
            obtain ⟨-, -, -, h4⟩ := h
            subst h4
            have l1 := congrArg List.length heq
            have l2 := congrArg List.length heq2
            simp only [List.length_drop, List.length_cons] at l1 l2
            simp only [List.length_cons]
            omega
          · exact absurd h (by simp)
        · exact absurd h (by simp)
      · exact absurd h (by simp)
    · exact absurd h (by simp)
  · exact absurd h (by simp)

theorem findHeadA_length :
    ∀ (s hdr ty : List Char) (oc : Char) (rest : List Char),
    findHeadA s = some (hdr, ty, oc, rest) → rest.length < s.length := by
  intro s
  induction s with
  | nil => intro hdr ty oc rest h; simp [findHeadA] at h
  | cons c s' ih =>
    intro hdr ty oc rest h
    simp only [findHeadA] at h
    split at h
    · rename_i r heq
      rw [h] at heq
      exact matchHeadA_length _ _ _ _ _ heq
    · exact Nat.lt_trans (ih _ _ _ _ h) (by simp)

theorem extractBibGo_nil : ∀ (m : Nat), extractBibGo m [] = [] := by
  intro m
  cases m <;> rfl

theorem extractBibGo_congr :
    ∀ (n m : Nat) (s : List Char), s.length ≤ n → s.length ≤ m →
    extractBibGo n s = extractBibGo m s := by
  intro n
  induction n with
  | zero =>
    intro m s hn _
    rw [List.length_eq_zero.mp (Nat.le_zero.mp hn)]
    rw [extractBibGo_nil, extractBibGo_nil]
  | succ k ih =>
    intro m s hn hm
    cases m with
    | zero =>
      rw [List.length_eq_zero.mp (Nat.le_zero.mp hm)]
      rw [extractBibGo_nil, extractBibGo_nil]
    | succ k' =>
      show extractBibGo (k + 1) s = extractBibGo (k' + 1) s
      cases hf : findHeadA s with
      | none => simp only [extractBibGo, hf]
      | some q =>
        obtain ⟨hdr, ty, oc, rest⟩ := q
        have hrest := findHeadA_length s hdr ty oc rest hf
        simp only [extractBibGo, hf]
        cases hs : scanBalanced oc (if oc = lb then rb else ')') 1 rest with
        | none => exact ih k' rest (by omega) (by omega)
        | some p =>
          obtain ⟨inside, after⟩ := p
          have hafter := scanBalanced_length rest 1 inside after hs
          show (ty, hdr ++ inside) :: extractBibGo k after =
            (ty, hdr ++ inside) :: extractBibGo k' after
          rw [ih k' after (by omega) (by omega)]

/-- Counterexample to C3 as stated: for the never-balancing candidate `@a{x`,
the `Unique.py` tokenizer returns the candidate (truncated at end of input)
rather than skipping it, and the `Keywords.py` tokenizer likewise returns it
as an `entry` piece. -/
theorem c3_counterexample :
    extract_entries (cs "@a\x7bx") = [cs "@a\x7bx"] ∧
    split_entries (cs "@a\x7bx") = [(cs "entry", cs "@a\x7bx")] :=
  ⟨by decide, by decide⟩

/-- C3 (amended): no tokenizer raises on a never-balancing candidate.
`Add_type.py`'s `extract_bibtex_entries` skips such a candidate, resuming the
scan one position past its opening delimiter (`i = m.end()`); `Unique.py`'s
`extract_entries` instead returns the candidate truncated at end of input and
ends the scan, and `Keywords.py`'s `split_entries` returns it as a final
`entry` piece (after any pending non-entry prefix). -/
theorem c3_unbalanced_candidates :
    (∀ (s hdr ty : List Char) (oc : Char) (rest : List Char),
      findHeadA s = some (hdr, ty, oc, rest) →
      scanBalanced oc (if oc = lb then rb else ')') 1 rest = none →
      extract_bibtex_entries s = extract_bibtex_entries rest) ∧
    (∀ (s before hdr rest : List Char),
      findEntryStart s = some (before, hdr, rest) →
      scanBalanced lb rb 1 rest = none →
      extract_entries s = [hdr ++ rest]) ∧
    (∀ (s before t1 : List Char) (oc : Char) (r2 : List Char),
      findAtSign s = some (before, '@' :: t1) →
      t1.drop (t1.takeWhile (fun c => decide (c ≠ lb ∧ c ≠ '('))).length = oc :: r2 →
      scanBalanced oc (if oc = lb then rb else ')') 1 r2 = none →
      split_entries s =
        (if before = [] then [] else [(cs "non-entry", before)]) ++ [(cs "entry", '@' :: t1)]) := by
  refine ⟨?_, ?_, ?_⟩
  · intro s hdr ty oc rest hf hscan
    match s with
    | [] => simp [findHeadA] at hf
    | c :: s' =>
      show extractBibGo (s'.length + 1) (c :: s') = extract_bibtex_entries rest
      have hrest := findHeadA_length (c :: s') hdr ty oc rest hf
      simp only [extractBibGo, hf, hscan]
      exact extractBibGo_congr s'.length rest.length rest
        (by simp at hrest; omega) (Nat.le_refl _)
  · intro s before hdr rest hf hscan
    match s with
    | [] => simp [findEntryStart] at hf
    | c :: s' =>
      show extractEntriesGo (s'.length + 1) (c :: s') = [hdr ++ rest]
      simp only [extractEntriesGo, hf, hscan]
  · intro s before t1 oc r2 hf hdrop hscan
    match s with
    | [] => simp [findAtSign] at hf
    | c :: s' =>
      show splitEntriesGo (s'.length + 1) (c :: s') = _
      simp only [splitEntriesGo, hf, List.tail_cons, hdrop, hscan]

/-- Witness for C3 at concrete inputs: `@a{x` never balances; `Add_type`'s
tokenizer resumes right after the opening brace (and then finds the later
balanced entry `@b{y}`), `Unique`'s returns the truncated candidate, and
`Keywords`' returns it as an `entry` piece. -/
theorem c3_unbalanced_candidates_witness :
    extract_bibtex_entries (cs "@a\x7bx @b\x7by\x7d") =
      extract_bibtex_entries (cs "x @b\x7by\x7d") ∧
    extract_entries (cs "@a\x7bx") = [cs "@a\x7b" ++ cs "x"] ∧
    split_entries (cs "@a\x7bx") = [] ++ [(cs "entry", '@' :: cs "a\x7bx")] := by
  refine ⟨?_, ?_, ?_⟩
  · exact c3_unbalanced_candidates.1 (cs "@a\x7bx @b\x7by\x7d") (cs "@a\x7b") (cs "a") lb
      (cs "x @b\x7by\x7d") (by decide) (by decide)
  · exact c3_unbalanced_candidates.2.1 (cs "@a\x7bx") [] (cs "@a\x7b") (cs "x")
      (by decide) (by decide)
  · exact c3_unbalanced_candidates.2.2 (cs "@a\x7bx") [] (cs "a\x7bx") lb (cs "x")
      (by decide) (by decide) (by decide)

/-! ### C8: record augmentation (`append_fields`) -/

theorem idxOf?_lt {c : Char} : ∀ {s : List Char} {k : Nat}, idxOf? c s = some k → k < s.length := by
  intro s
  induction s with
  | nil => intro k h; simp [idxOf?] at h
  | cons x rest ih =>
    intro k h
    simp only [idxOf?] at h
    split at h
    · simp only [Option.some.injEq] at h; subst h; simp
    · obtain ⟨k', hk', hrw⟩ := Option.map_eq_some'.mp h
      subst hrw
      have := ih hk'
      simp only [List.length_cons]
      omega

theorem rfindIdx_lt {c : Char} {e : List Char} {i : Nat} (h : rfindIdx c e = some i) :
    i < e.length := by
  unfold rfindIdx at h
  obtain ⟨k, hk, hrw⟩ := Option.map_eq_some'.mp h
  subst hrw
  have := idxOf?_lt hk
  simp only [List.length_reverse] at this
  omega

/-- Counterexample to C8 as stated: the record already contains an
`actualSearch` field, yet `append_fields` is not a no-op — it unconditionally
appends a second `actualSearch` line (only the `source` field gets the
presence check). -/
theorem c8_counterexample :
    get_field (cs "@a\x7bx,\n  actualSearch = \x7bold\x7d\n\x7d") (cs "actualSearch") =
      some (cs "old") ∧
    append_fields (cs "@a\x7bx,\n  actualSearch = \x7bold\x7d\n\x7d") (cs "new") none ≠
      cs "@a\x7bx,\n  actualSearch = \x7bold\x7d\n\x7d" :=
  ⟨by decide, by decide⟩

/-- C8 (amended): `append_fields` skips the `source` field when a source field
already exists (case-insensitively, per `has_source_field`) and otherwise — for
a truthy source value — inserts exactly one `source` line; the `actualSearch`
field is appended unconditionally, even when a field of that name already
exists.  Each inserted line uses the record's detected majority indentation
and the record's newline convention, is placed immediately before the final
closing brace, and the text before that brace (hence every existing field's
order and content) is preserved verbatim. -/
theorem c8_append_fields (e a : List Char) (sv : Option (List Char)) (i : Nat) :
    (has_source_field e = true → rfindIdx rb e = some i →
      append_fields e a sv =
        e.take i ++ (detect_common_field_indent e ++ cs "actualSearch = " ++
          lb :: a ++ rb :: (if '\n' ∈ e then ['\n'] else ['\r', '\n'])) ++
          rb :: e.drop (i + 1)) ∧
    (∀ v, sv = some v → v ≠ [] → has_source_field e = false → rfindIdx rb e = some i →
      append_fields e a sv =
        e.take i ++ ((detect_common_field_indent e ++ cs "source = " ++ lb :: v ++ rb :: ',' ::
            (if '\n' ∈ e then ['\n'] else ['\r', '\n'])) ++
          (detect_common_field_indent e ++ cs "actualSearch = " ++ lb :: a ++ rb ::
            (if '\n' ∈ e then ['\n'] else ['\r', '\n']))) ++ rb :: e.drop (i + 1)) ∧
    (rfindIdx rb e = some i → (append_fields e a sv).take i = e.take i) := by
  refine ⟨?_, ?_, ?_⟩
  · intro hsf hidx
    cases sv with
    | none => simp [append_fields, hidx]
    | some v => simp [append_fields, hidx, hsf]
  · intro v hv hne hsf hidx
    subst hv
    simp [append_fields, hidx, hsf, hne, List.append_assoc]
  · intro hidx
    have hlen : (e.take i).length = i := by
      simp [List.length_take, Nat.min_eq_left (Nat.le_of_lt (rfindIdx_lt hidx))]
    simp only [append_fields, hidx]
    rw [List.append_assoc]
    exact List.take_left' hlen

/-- Witness for C8 at concrete records: one that already has a `source` field
(only `actualSearch` is inserted) and one that does not (both lines are
inserted); the text before the final brace is preserved. -/
theorem c8_append_fields_witness :
    append_fields (cs "@a\x7bx,\n  source = \x7bS\x7d\n\x7d") (cs "f1") (some (cs "src")) =
      (cs "@a\x7bx,\n  source = \x7bS\x7d\n\x7d").take 21 ++
        (detect_common_field_indent (cs "@a\x7bx,\n  source = \x7bS\x7d\n\x7d") ++
          cs "actualSearch = " ++ lb :: cs "f1" ++ rb ::
          (if '\n' ∈ cs "@a\x7bx,\n  source = \x7bS\x7d\n\x7d" then ['\n'] else ['\r', '\n'])) ++
        rb :: (cs "@a\x7bx,\n  source = \x7bS\x7d\n\x7d").drop 22 ∧
    append_fields (cs "@a\x7bx,\n  title = \x7bT\x7d\n\x7d") (cs "f1") (some (cs "src")) =
      (cs "@a\x7bx,\n  title = \x7bT\x7d\n\x7d").take 20 ++
        ((detect_common_field_indent (cs "@a\x7bx,\n  title = \x7bT\x7d\n\x7d") ++
            cs "source = " ++ lb :: cs "src" ++ rb :: ',' ::
            (if '\n' ∈ cs "@a\x7bx,\n  title = \x7bT\x7d\n\x7d" then ['\n'] else ['\r', '\n'])) ++
          (detect_common_field_indent (cs "@a\x7bx,\n  title = \x7bT\x7d\n\x7d") ++
            cs "actualSearch = " ++ lb :: cs "f1" ++ rb ::
            (if '\n' ∈ cs "@a\x7bx,\n  title = \x7bT\x7d\n\x7d" then ['\n'] else ['\r', '\n']))) ++
        rb :: (cs "@a\x7bx,\n  title = \x7bT\x7d\n\x7d").drop 21 ∧
    (append_fields (cs "@a\x7bx,\n  source = \x7bS\x7d\n\x7d") (cs "f1") (some (cs "src"))).take 21 =
      (cs "@a\x7bx,\n  source = \x7bS\x7d\n\x7d").take 21 := by
  refine ⟨?_, ?_, ?_⟩
  · exact (c8_append_fields (cs "@a\x7bx,\n  source = \x7bS\x7d\n\x7d") (cs "f1")
      (some (cs "src")) 21).1 (by decide) (by decide)
  · exact (c8_append_fields (cs "@a\x7bx,\n  title = \x7bT\x7d\n\x7d") (cs "f1")
      (some (cs "src")) 20).2.1 (cs "src") rfl (by decide) (by decide) (by decide)
  · exact (c8_append_fields (cs "@a\x7bx,\n  source = \x7bS\x7d\n\x7d") (cs "f1")
      (some (cs "src")) 21).2.2 (by decide)

/-- `List.get` at an index inside the left part of an append with a singleton. -/
theorem get_append_left_one {α : Type} (l : List α) (a : α) (j : Nat) (hj : j < l.length)
    (hj' : j < (l ++ [a]).length) : (l ++ [a]).get ⟨j, hj'⟩ = l.get ⟨j, hj⟩ := by
  simp [List.get_eq_getElem, List.getElem_append_left hj]

/-- `List.get` at the last position of an append with a singleton. -/
theorem get_append_last_one {α : Type} (l : List α) (a : α)
    (h : l.length < (l ++ [a]).length) : (l ++ [a]).get ⟨l.length, h⟩ = a := by
  simp [List.get_eq_getElem]

/-- The cleaning-loop invariant holds before any entry is processed. -/
theorem cleanInv_nil : CleanInv [] ⟨[], [], []⟩ := by
  refine ⟨rfl, rfl, ?_, ?_⟩
  · intro k
    simp [CleanInv]
  · intro i hi
    exact absurd hi (Nat.not_lt_zero i)

/-- One step of the cleaning loop preserves the invariant. -/
theorem cleanInv_step (pre : List (List Char)) (st : CleanState) (e : List Char)
    (h : CleanInv pre st) : CleanInv (pre ++ [e]) (clean_step st e) := by
  obtain ⟨hlen, hkept, hseen, hflag⟩ := h
  have hplen : pre.length = st.flags.length := hlen.symm
  have hidx : ∀ (j : Nat) (hj : j < pre.length) (hj' : j < (pre ++ [e]).length),
      (pre ++ [e]).get ⟨j, hj'⟩ = pre.get ⟨j, hj⟩ :=
    fun j hj hj' => get_append_left_one pre e j hj hj'
  have hlast : ∀ (h' : pre.length < (pre ++ [e]).length),
      (pre ++ [e]).get ⟨pre.length, h'⟩ = e :=
    fun h' => get_append_last_one pre e h'
  cases hck : cleanKey e with
  | none =>
    have hst : clean_step st e =
        { st with kept := st.kept ++ [e], flags := st.flags ++ [false] } := by
      simp [clean_step, hck]
    rw [hst]
    refine ⟨by simp [hlen], ?_, ?_, ?_⟩
    · show st.kept ++ [e] = _
      rw [List.zip_append hplen, List.filterMap_append, ← hkept]
      simp
    · intro k
      show k ∈ st.seen ↔ _
      rw [hseen k]
      constructor
      · rintro ⟨j, hj, hkey⟩
        exact ⟨j, by simpa using Nat.lt_succ_of_lt hj,
          by rw [hidx j hj]; exact hkey⟩
      · rintro ⟨j, hj, hkey⟩
        have hj1 : j < pre.length + 1 := by simpa using hj
        rcases Nat.lt_or_ge j pre.length with hlt | hge
        · exact ⟨j, hlt, by rw [← hidx j hlt hj]; exact hkey⟩
        · have hje : j = pre.length := by omega
          subst hje
          rw [hlast hj, hck] at hkey
          exact absurd hkey (by simp)
    · intro i hi hf
      have hf1 : i < st.flags.length + 1 := by simpa using hf
      rcases Nat.lt_or_ge i pre.length with hlt | hge
      · have hf' : i < st.flags.length := by omega
        show (st.flags ++ [false]).get ⟨i, hf⟩ = true ↔ _
        rw [get_append_left_one st.flags false i hf' hf, hidx i hlt hi, hflag i hlt hf']
        constructor
        · rintro ⟨k, hk, j, hj, hkey⟩
          exact ⟨k, hk, j, hj,
            by rw [hidx j (Nat.lt_trans hj hlt) (Nat.lt_trans hj hi)]; exact hkey⟩
        · rintro ⟨k, hk, j, hj, hkey⟩
          exact ⟨k, hk, j, hj,
            by rw [← hidx j (Nat.lt_trans hj hlt) (Nat.lt_trans hj hi)]; exact hkey⟩
      · have hie : i = pre.length := by omega
        subst hie
        show (st.flags ++ [false]).get ⟨pre.length, hf⟩ = true ↔ _
        have hgl : (st.flags ++ [false]).get ⟨pre.length, hf⟩ = false := by
          have h1 : (st.flags ++ [false]).get ⟨pre.length, hf⟩ =
              (st.flags ++ [false]).get ⟨st.flags.length, by simp⟩ := by
            congr 1
            exact Fin.ext hplen
          rw [h1]
          exact get_append_last_one st.flags false (by simp)
        rw [hgl, hlast hi]
        constructor
        · intro hcontra
          exact absurd hcontra (by simp)
        · rintro ⟨k, hk, _, _, _⟩
          rw [hck] at hk
          exact absurd hk (by simp)
  | some k =>
    by_cases hmem : k ∈ st.seen
    · have hst : clean_step st e = { st with flags := st.flags ++ [true] } := by
        simp [clean_step, hck, hmem]
      rw [hst]
      refine ⟨by simp [hlen], ?_, ?_, ?_⟩
      · show st.kept = _
        rw [List.zip_append hplen, List.filterMap_append, ← hkept]
        simp
      · intro k'
        show k' ∈ st.seen ↔ _
        rw [hseen k']
        constructor
        · rintro ⟨j, hj, hkey⟩
          exact ⟨j, by simpa using Nat.lt_succ_of_lt hj,
            by rw [hidx j hj]; exact hkey⟩
        · rintro ⟨j, hj, hkey⟩
          have hj1 : j < pre.length + 1 := by simpa using hj
          rcases Nat.lt_or_ge j pre.length with hlt | hge
          · exact ⟨j, hlt, by rw [← hidx j hlt hj]; exact hkey⟩
          · have hje : j = pre.length := by omega
            subst hje
            rw [hlast hj, hck] at hkey
            obtain rfl : k = k' := Option.some.inj hkey
            exact (hseen k).mp hmem
      · intro i hi hf
        have hf1 : i < st.flags.length + 1 := by simpa using hf
        rcases Nat.lt_or_ge i pre.length with hlt | hge
        · have hf' : i < st.flags.length := by omega
          show (st.flags ++ [true]).get ⟨i, hf⟩ = true ↔ _
          rw [get_append_left_one st.flags true i hf' hf, hidx i hlt hi, hflag i hlt hf']
          constructor
          · rintro ⟨k', hk, j, hj, hkey⟩
            exact ⟨k', hk, j, hj,
              by rw [hidx j (Nat.lt_trans hj hlt) (Nat.lt_trans hj hi)]; exact hkey⟩
          · rintro ⟨k', hk, j, hj, hkey⟩
            exact ⟨k', hk, j, hj,
              by rw [← hidx j (Nat.lt_trans hj hlt) (Nat.lt_trans hj hi)]; exact hkey⟩
        · have hie : i = pre.length := by omega
          subst hie
          show (st.flags ++ [true]).get ⟨pre.length, hf⟩ = true ↔ _
          have hgl : (st.flags ++ [true]).get ⟨pre.length, hf⟩ = true := by
            have h1 : (st.flags ++ [true]).get ⟨pre.length, hf⟩ =
                (st.flags ++ [true]).get ⟨st.flags.length, by simp⟩ := by
              congr 1
              exact Fin.ext hplen
            rw [h1]
            exact get_append_last_one st.flags true (by simp)
          rw [hgl, hlast hi]
          constructor
          · intro _
            obtain ⟨j, hj, hkey⟩ := (hseen k).mp hmem
            exact ⟨k, hck, j, hj,
              by rw [hidx j hj (Nat.lt_trans hj hi)]; exact hkey⟩
          · intro _
            rfl
    · have hst : clean_step st e =
          ⟨st.seen ++ [k], st.kept ++ [e], st.flags ++ [false]⟩ := by
        simp [clean_step, hck, hmem]
      rw [hst]
      refine ⟨by simp [hlen], ?_, ?_, ?_⟩
      · show st.kept ++ [e] = _
        rw [List.zip_append hplen, List.filterMap_append, ← hkept]
        simp
      · intro k'
        show k' ∈ st.seen ++ [k] ↔ _
        rw [List.mem_append, List.mem_singleton, hseen k']
        constructor
        · rintro (⟨j, hj, hkey⟩ | rfl)
          · exact ⟨j, by simpa using Nat.lt_succ_of_lt hj,
              by rw [hidx j hj]; exact hkey⟩
          · exact ⟨pre.length, by simp, by rw [hlast]; exact hck⟩
        · rintro ⟨j, hj, hkey⟩
          have hj1 : j < pre.length + 1 := by simpa using hj
          rcases Nat.lt_or_ge j pre.length with hlt | hge
          · exact Or.inl ⟨j, hlt, by rw [← hidx j hlt hj]; exact hkey⟩
          · have hje : j = pre.length := by omega
            subst hje
            rw [hlast hj, hck] at hkey
            exact Or.inr (Option.some.inj hkey).symm
      · intro i hi hf
        have hf1 : i < st.flags.length + 1 := by simpa using hf
        rcases Nat.lt_or_ge i pre.length with hlt | hge
        · have hf' : i < st.flags.length := by omega
          show (st.flags ++ [false]).get ⟨i, hf⟩ = true ↔ _
          rw [get_append_left_one st.flags false i hf' hf, hidx i hlt hi, hflag i hlt hf']
          constructor
          · rintro ⟨k', hk, j, hj, hkey⟩
            exact ⟨k', hk, j, hj,
              by rw [hidx j (Nat.lt_trans hj hlt) (Nat.lt_trans hj hi)]; exact hkey⟩
          · rintro ⟨k', hk, j, hj, hkey⟩
            exact ⟨k', hk, j, hj,
              by rw [← hidx j (Nat.lt_trans hj hlt) (Nat.lt_trans hj hi)]; exact hkey⟩
        · have hie : i = pre.length := by omega
          subst hie
          show (st.flags ++ [false]).get ⟨pre.length, hf⟩ = true ↔ _
          have hgl : (st.flags ++ [false]).get ⟨pre.length, hf⟩ = false := by
            have h1 : (st.flags ++ [false]).get ⟨pre.length, hf⟩ =
                (st.flags ++ [false]).get ⟨st.flags.length, by simp⟩ := by
              congr 1
              exact Fin.ext hplen
            rw [h1]
            exact get_append_last_one st.flags false (by simp)
          rw [hgl, hlast hi]
          constructor
          · intro hcontra
            exact absurd hcontra (by simp)
          · rintro ⟨k', hk, j, hj, hkey⟩
            rw [hck] at hk
            obtain rfl : k = k' := Option.some.inj hk
            rw [hidx j hj (Nat.lt_trans hj hi)] at hkey
            exact absurd ((hseen k).mpr ⟨j, hj, hkey⟩) hmem

/-- Folding the cleaning step over any list of entries preserves the invariant. -/
theorem cleanInv_fold (rest : List (List Char)) : ∀ (pre : List (List Char)) (st : CleanState),
    CleanInv pre st → CleanInv (pre ++ rest) (rest.foldl clean_step st) := by
  induction rest with
  | nil =>
    intro pre st h
    simpa using h
  | cons e r ih =>
    intro pre st h
    have h2 := ih (pre ++ [e]) (clean_step st e) (cleanInv_step pre st e h)
    simpa [List.append_assoc] using h2

/-- C10: over any list of a file's entries, `clean_bibtex_duplicates_with_report`
emits one removed/kept flag per entry; an entry is flagged removed exactly when
it has a cleaning key — a normalizable ISSN together with a non-empty normalized
title — that some strictly earlier entry of the same file also has (so an entry
lacking either component is never removed); and the kept output is exactly the
unflagged entries in their original order. -/
theorem c10_issn_duplicate_cleaning (entries : List (List Char)) :
    (clean_file entries).flags.length = entries.length ∧
    (clean_file entries).kept =
      ((entries.zip (clean_file entries).flags).filterMap
        (fun p => if p.2 then none else some p.1)) ∧
    (∀ i, ∀ hi : i < entries.length, ∀ hf : i < (clean_file entries).flags.length,
      ((clean_file entries).flags.get ⟨i, hf⟩ = true ↔
        ∃ k, cleanKey (entries.get ⟨i, hi⟩) = some k ∧
          ∃ j, ∃ hj : j < i, cleanKey (entries.get ⟨j, Nat.lt_trans hj hi⟩) = some k)) := by
  have h := cleanInv_fold entries [] ⟨[], [], []⟩ cleanInv_nil
  rw [List.nil_append] at h
  exact ⟨h.1, h.2.1, h.2.2.2⟩

/-- Witness for C10: in a three-entry file where the first two entries share the
cleaning key (ISSN 1234-5678, title "dup title") and the third has no ISSN,
the second entry is flagged removed. -/
theorem c10_issn_duplicate_cleaning_witness :
    (clean_file [cs "@article\x7ba,\n issn = \x7b1234-5678\x7d,\n title = \x7bDup Title\x7d\n\x7d",
        cs "@article\x7bb,\n issn = \x7b1234-5678\x7d,\n title = \x7bDUP TITLE\x7d\n\x7d",
        cs "@article\x7bc,\n title = \x7bNo Issn\x7d\n\x7d"]).flags.get ⟨1, by decide⟩ = true := by
  have h := (c10_issn_duplicate_cleaning
      [cs "@article\x7ba,\n issn = \x7b1234-5678\x7d,\n title = \x7bDup Title\x7d\n\x7d",
       cs "@article\x7bb,\n issn = \x7b1234-5678\x7d,\n title = \x7bDUP TITLE\x7d\n\x7d",
       cs "@article\x7bc,\n title = \x7bNo Issn\x7d\n\x7d"]).2.2 1 (by decide) (by decide)
  exact h.mpr ⟨(cs "1234-5678", cs "dup title"), by decide, 0, by decide, by decide⟩

/-- Association lookup distributes over append through `Option.or`. -/
theorem alookup_append {α β : Type} [DecidableEq α] (l1 l2 : List (α × β)) (k : α) :
    alookup (l1 ++ l2) k = (alookup l1 k).or (alookup l2 k) := by
  induction l1 with
  | nil => simp [alookup, Option.or]
  | cons p r ih =>
    obtain ⟨a, b⟩ := p
    by_cases h : a = k
    · simp [alookup, h, Option.or]
    · simp [alookup, h, ih]

/-- The head of a `dropWhile` result fails the predicate. -/
theorem dropWhile_head_false {α : Type} (p : α → Bool) (l : List α) :
    ∀ x xs, l.dropWhile p = x :: xs → p x = false := by
  induction l with
  | nil => intro x xs h; cases h
  | cons a as ih =>
    intro x xs h
    rw [List.dropWhile_cons] at h
    by_cases hp : p a = true
    · rw [if_pos hp] at h
      exact ih x xs h
    · rw [if_neg hp] at h
      injection h with h1 h2
      subst h1
      exact Bool.eq_false_iff.mpr hp

/-- `dropWhile` is idempotent. -/
theorem dropWhile_idem' {α : Type} (p : α → Bool) (l : List α) :
    (l.dropWhile p).dropWhile p = l.dropWhile p := by
  cases h : l.dropWhile p with
  | nil => rfl
  | cons x xs =>
    have hx := dropWhile_head_false p l x xs h
    rw [List.dropWhile_cons, hx]
    simp

/-- Python `str.strip` is idempotent. -/
theorem pyStrip_idem (s : List Char) : pyStrip (pyStrip s) = pyStrip s := by
  have hb : ∀ x xs, pyStrip s = x :: xs → isPySpace x = false := by
    intro x xs hx
    have hsuf : (s.dropWhile isPySpace).reverse.dropWhile isPySpace <:+
        (s.dropWhile isPySpace).reverse := List.dropWhile_suffix _
    have hpre : pyStrip s <+: s.dropWhile isPySpace := by
      have h2 := List.reverse_prefix.mpr hsuf
      rwa [List.reverse_reverse] at h2
    obtain ⟨t, ht⟩ := hpre
    rw [hx] at ht
    exact dropWhile_head_false isPySpace s x (xs ++ t) (by rw [← ht]; simp)
  have hstep1 : (pyStrip s).dropWhile isPySpace = pyStrip s := by
    cases hbr : pyStrip s with
    | nil => rfl
    | cons x xs =>
      have hx := hb x xs hbr
      rw [List.dropWhile_cons, hx]
      simp
  have hstep2 : (pyStrip s).reverse.dropWhile isPySpace = (pyStrip s).reverse := by
    have hrev : (pyStrip s).reverse = (s.dropWhile isPySpace).reverse.dropWhile isPySpace := by
      show (((s.dropWhile isPySpace).reverse.dropWhile isPySpace).reverse).reverse = _
      rw [List.reverse_reverse]
    rw [hrev]
    exact dropWhile_idem' isPySpace _
  show (((pyStrip s).dropWhile isPySpace).reverse.dropWhile isPySpace).reverse = pyStrip s
  rw [hstep1, hstep2, List.reverse_reverse]

/-- The dict-building loop of `extract_all_fields` is first-occurrence-wins:
looking up a key in the finished dict consults the accumulator first and then
the first remaining regex match whose lowercased stripped name equals the key,
normalizing exactly that match's raw value. -/
theorem buildFields_alookup :
    ∀ (ms acc fs : List (List Char × List Char)), buildFields acc ms = some fs → ∀ k,
      alookup fs k = (alookup acc k).or
        (((ms.find? (fun m => decide (pyLower (pyStrip m.1) = k))).bind
          (fun m => normalize_value m.2))) := by
  intro ms
  induction ms with
  | nil =>
    intro acc fs h k
    rw [buildFields] at h
    injection h with h1
    rw [h1]
    cases alookup fs k <;> simp [List.find?, Option.or]
  | cons m ms ih =>
    intro acc fs h k
    obtain ⟨nm, rv⟩ := m
    rw [buildFields] at h
    by_cases hk : (alookup acc (pyLower (pyStrip nm))).isSome
    · rw [if_pos hk] at h
      rw [ih acc fs h k]
      by_cases hkey : pyLower (pyStrip nm) = k
      · obtain ⟨v0, hv0⟩ := Option.isSome_iff_exists.mp (hkey ▸ hk)
        rw [hv0]
        simp [Option.or]
      · rw [List.find?_cons_of_neg _ (by simpa using hkey)]
    · rw [if_neg hk] at h
      cases hnv : normalize_value rv with
      | none =>
        rw [hnv] at h
        exact absurd h (by simp)
      | some v =>
        rw [hnv] at h
        have hih := ih _ fs h k
        rw [hih, alookup_append]
        by_cases hkey : pyLower (pyStrip nm) = k
        · rw [List.find?_cons_of_pos _ (by simpa using hkey)]
          have hacc : alookup acc k = none := by
            rw [← hkey]
            exact Option.not_isSome_iff_eq_none.mp hk
          rw [hacc]
          simp [alookup, hkey, hnv, Option.or]
        · rw [List.find?_cons_of_neg _ (by simpa using hkey)]
          have h1 : alookup [(pyLower (pyStrip nm), v)] k = none := by
            simp [alookup, hkey]
          rw [h1]
          cases alookup acc k <;> simp [Option.or]

/-- C9 counterexample: in a record whose `title` field occurs first
quote-delimited (value `A`) and later brace-delimited (value `B`),
`Unique.py`'s `get_field` returns the later occurrence `B` — the brace pattern
is searched over the whole record before the quote pattern is tried — while
`Screening.py`'s extractor returns the first occurrence `A`. -/
theorem c9_counterexample :
    get_field eC9dup (cs "title") = some (cs "B") ∧
    (extract_all_fields eC9dup).map (fun fv => alookup fv.fields (cs "title")) =
      some (some (cs "A")) := by
  constructor
  · decide
  · decide

/-- C9 (amended): `Screening.py`'s `extract_all_fields` is first-occurrence
wins — for any field name other than the aliased `language`, the resulting
dict maps the lowercased name to the normalized raw value of the FIRST regex
match with that name, and `none` (a sentinel, not an exception) when no such
match exists; `searchword_list` is the `searchword` value split on `;` into
stripped non-empty tokens in order, `[]` when the field is absent.  However
`Unique.py`'s `get_field` is brace-pattern-first, not first-occurrence-first:
any hit of the brace-delimited pattern anywhere in the record is returned, and
the quote-delimited pattern is consulted only when the brace pattern finds
nothing. -/
theorem c9_field_query (e : List Char) (fv : FieldsView)
    (h : extract_all_fields e = some fv) :
    (∀ k, k ≠ cs "language" →
      alookup fv.fields k =
        ((finditerGo e.length true e).find?
          (fun m => decide (pyLower (pyStrip m.1) = k))).bind
          (fun m => normalize_value m.2)) ∧
    (∀ v, alookup fv.fields (cs "searchword") = some v →
      fv.searchword_list = splitSemiTrim v) ∧
    (alookup fv.fields (cs "searchword") = none → fv.searchword_list = []) ∧
    (∀ t, t ∈ fv.searchword_list → pyStrip t = t ∧ t ≠ []) ∧
    (∀ entry field v, searchLA (matchDelim field lb rb) true entry = some v →
      get_field entry field = some (pyStrip v)) ∧
    (∀ entry field, searchLA (matchDelim field lb rb) true entry = none →
      get_field entry field = (searchLA (matchDelim field '"' '"') true entry).map pyStrip) := by
  cases hbf : buildFields [] (finditerGo e.length true e) with
  | none =>
    rw [extract_all_fields, hbf] at h
    exact absurd h (by simp)
  | some fs =>
    rw [extract_all_fields, hbf] at h
    simp only at h
    cases h
    refine ⟨?_, ?_, ?_, ?_, ?_, ?_⟩
    · intro k hk
      show alookup (if _ then _ else _) k = _
      have hfs := buildFields_alookup _ [] fs hbf k
      rw [show alookup ([] : List (List Char × List Char)) k = none from rfl] at hfs
      by_cases hcond : (alookup fs (cs "language")).isNone ∧ (alookup fs (cs "langid")).isSome
      · rw [if_pos hcond, alookup_append, hfs]
        have h1 : alookup [(cs "language", (alookup fs (cs "langid")).getD [])] k = none := by
          simp [alookup, if_neg (Ne.symm hk)]
        rw [h1]
        cases ((finditerGo e.length true e).find?
            (fun m => decide (pyLower (pyStrip m.1) = k))).bind
            (fun m => normalize_value m.2) <;> simp [Option.or]
      · rw [if_neg hcond, hfs]
        cases ((finditerGo e.length true e).find?
            (fun m => decide (pyLower (pyStrip m.1) = k))).bind
            (fun m => normalize_value m.2) <;> simp [Option.or]
    · intro v hv
      show (match alookup _ (cs "searchword") with
        | some v => splitSemiTrim v
        | none => []) = _
      rw [show alookup (if (alookup fs (cs "language")).isNone ∧
            (alookup fs (cs "langid")).isSome then
          fs ++ [(cs "language", (alookup fs (cs "langid")).getD [])]
        else fs) (cs "searchword") = some v from hv]
    · intro hnone
      show (match alookup _ (cs "searchword") with
        | some v => splitSemiTrim v
        | none => []) = _
      rw [show alookup (if (alookup fs (cs "language")).isNone ∧
            (alookup fs (cs "langid")).isSome then
          fs ++ [(cs "language", (alookup fs (cs "langid")).getD [])]
        else fs) (cs "searchword") = none from hnone]
    · intro t ht
      have hsw : t ∈ (match alookup (if (alookup fs (cs "language")).isNone ∧
            (alookup fs (cs "langid")).isSome then
          fs ++ [(cs "language", (alookup fs (cs "langid")).getD [])]
        else fs) (cs "searchword") with
        | some v => splitSemiTrim v
        | none => ([] : List (List Char))) := ht
      cases halk : alookup (if (alookup fs (cs "language")).isNone ∧
            (alookup fs (cs "langid")).isSome then
          fs ++ [(cs "language", (alookup fs (cs "langid")).getD [])]
        else fs) (cs "searchword") with
      | none =>
        rw [halk] at hsw
        simp at hsw
      | some v =>
        rw [halk] at hsw
        simp only [splitSemiTrim, List.mem_filter, List.mem_map] at hsw
        obtain ⟨⟨p, _, hp⟩, hne⟩ := hsw
        refine ⟨?_, by simpa using hne⟩
        rw [← hp, pyStrip_idem]
    · intro entry field v hv
      rw [get_field, hv]
    · intro entry field hnone
      rw [get_field, hnone]
      cases searchLA (matchDelim field '"' '"') true entry <;> rfl

/-- Witness for C9: on the concrete record `eC9`, the field dict's `title`
entry equals the normalized value of the first `title` match, and on a
concrete record with a brace-delimited `ti` field, `get_field` returns the
stripped captured value. -/
theorem c9_field_query_witness :
    alookup (FieldsView.mk [(cs "title", cs "T1"), (cs "searchword", cs "A; B ;; C"),
        (cs "langid", cs "english"), (cs "language", cs "english")]
        [cs "A", cs "B", cs "C"]).fields (cs "title") =
      ((finditerGo eC9.length true eC9).find?
        (fun m => decide (pyLower (pyStrip m.1) = cs "title"))).bind
        (fun m => normalize_value m.2) ∧
    get_field (cs "@a\x7by,\n ti = \x7bZ\x7d\n\x7d") (cs "ti") = some (pyStrip (cs "Z")) := by
  have h := c9_field_query eC9 ⟨[(cs "title", cs "T1"), (cs "searchword", cs "A; B ;; C"),
      (cs "langid", cs "english"), (cs "language", cs "english")],
      [cs "A", cs "B", cs "C"]⟩ (by decide)
  exact ⟨h.1 (cs "title") (by decide),
    h.2.2.2.2.1 (cs "@a\x7by,\n ti = \x7bZ\x7d\n\x7d") (cs "ti") (cs "Z") (by decide)⟩

/-- Lookup after a `groupsAppend`: the appended key's bucket gains the item at
the end; all other buckets are unchanged (association-level form). -/
theorem alookup_groupsAppend (g : List ((List Char × List Char) × List DedupItem))
    (k0 k : List Char × List Char) (v : DedupItem) :
    alookup (groupsAppend g k0 v) k =
      if k0 = k then some (groupsLookup g k ++ [v]) else alookup g k := by
  induction g with
  | nil =>
    by_cases hk : k0 = k <;> simp [groupsAppend, alookup, groupsLookup, hk]
  | cons p rest ih =>
    obtain ⟨k', vs⟩ := p
    by_cases hk' : k' = k0
    · subst hk'
      rw [show groupsAppend ((k', vs) :: rest) k' v = (k', vs ++ [v]) :: rest from by
        rw [groupsAppend, if_pos rfl]]
      by_cases hk : k' = k
      · subst hk
        simp [alookup, groupsLookup]
      · simp [alookup, hk, groupsLookup]
    · rw [show groupsAppend ((k', vs) :: rest) k0 v = (k', vs) :: groupsAppend rest k0 v from by
        rw [groupsAppend, if_neg hk']]
      by_cases hk : k' = k
      · subst hk
        have hk0 : ¬ (k0 = k') := fun hh => hk' hh.symm
        simp [alookup, hk0]
      · simp [alookup, hk, ih, groupsLookup]

/-- Lookup after a `groupsAppend`, bucket-level form. -/
theorem groupsLookup_append (g : List ((List Char × List Char) × List DedupItem))
    (k0 k : List Char × List Char) (v : DedupItem) :
    groupsLookup (groupsAppend g k0 v) k =
      if k0 = k then groupsLookup g k ++ [v] else groupsLookup g k := by
  rw [groupsLookup, alookup_groupsAppend]
  by_cases hk : k0 = k
  · rw [if_pos hk, if_pos hk]
    rfl
  · rw [if_neg hk, if_neg hk]
    rfl

/-- A `filter` result starting with `a` decomposes the list at `a`'s first
filtered occurrence. -/
theorem filter_eq_cons_decomp {α : Type} (p : α → Bool) :
    ∀ (l : List α) (a : α) (as : List α), l.filter p = a :: as →
      ∃ l₁ l₂, l = l₁ ++ a :: l₂ ∧ (∀ x, x ∈ l₁ → p x = false) ∧
        p a = true ∧ l₂.filter p = as := by
  intro l
  induction l with
  | nil => intro a as h; cases h
  | cons x xs ih =>
    intro a as h
    rw [List.filter_cons] at h
    by_cases hx : p x = true
    · rw [if_pos hx] at h
      injection h with h1 h2
      subst h1
      exact ⟨[], xs, rfl, by simp, hx, h2⟩
    · rw [if_neg hx] at h
      obtain ⟨l₁, l₂, hl, hl1, hpa, hl2⟩ := ih a as h
      refine ⟨x :: l₁, l₂, by rw [List.cons_append, hl], ?_, hpa, hl2⟩
      intro y hy
      rcases List.mem_cons.mp hy with rfl | hy2
      · exact Bool.eq_false_iff.mpr hx
      · exact hl1 y hy2

/-- The dedup invariant holds before any record is processed. -/
theorem dedupInv_nil : DedupInv ⟨[], [], [], []⟩ := by
  refine ⟨?_, ?_, ?_, ?_⟩
  · intro k
    simp
  · intro k
    rfl
  · rfl
  · intro pre it post hdec
    simp at hdec

/-- One pass of the dedup loop body preserves the invariant, stated for an
arbitrary item carrying the record's `(strategy, key)` pair. -/
theorem dedupInv_step_general (st : DedupState) (sk : List Char × List Char)
    (item : DedupItem) (upd : List Char)
    (hstrat : item.strategy = sk.1) (hkeyf : item.key = sk.2)
    (hkept : item.kept = decide (sk ∉ st.seen))
    (hent : item.entry_text = upd)
    (h : DedupInv st) :
    DedupInv (if sk ∈ st.seen
      then { st with groups := groupsAppend st.groups sk item,
                     items := st.items ++ [item] }
      else ⟨st.seen ++ [sk], st.merged ++ [upd],
            groupsAppend st.groups sk item, st.items ++ [item]⟩) := by
  obtain ⟨h1, h2, h3, h4⟩ := h
  have hpair : (item.strategy, item.key) = sk := by
    rw [hstrat, hkeyf]
  by_cases hm : sk ∈ st.seen
  · rw [if_pos hm]
    have hkf : item.kept = false := by
      rw [hkept]
      simp [hm]
    refine ⟨?_, ?_, ?_, ?_⟩
    · intro k
      show k ∈ st.seen ↔ ∃ it, it ∈ st.items ++ [item] ∧ (it.strategy, it.key) = k
      constructor
      · intro hk
        obtain ⟨it, hit, hp⟩ := (h1 k).mp hk
        exact ⟨it, List.mem_append_left _ hit, hp⟩
      · rintro ⟨it, hit, hp⟩
        rcases List.mem_append.mp hit with hin | hin
        · exact (h1 k).mpr ⟨it, hin, hp⟩
        · have hit2 : it = item := by simpa using hin
          subst hit2
          rw [hpair] at hp
          exact hp ▸ hm
    · intro k
      show groupsLookup (groupsAppend st.groups sk item) k =
        (st.items ++ [item]).filter (fun it => decide ((it.strategy, it.key) = k))
      rw [groupsLookup_append, List.filter_append, h2 k]
      by_cases hk : sk = k
      · rw [if_pos hk]
        have hfil : [item].filter (fun it => decide ((it.strategy, it.key) = k)) = [item] := by
          simp [List.filter, hpair, hk]
        rw [hfil]
      · rw [if_neg hk]
        have hfil : [item].filter (fun it => decide ((it.strategy, it.key) = k)) = [] := by
          simp [List.filter, hpair, hk]
        rw [hfil, List.append_nil]
    · show st.merged =
        ((st.items ++ [item]).filter (fun it => it.kept)).map (fun it => it.entry_text)
      rw [List.filter_append]
      have hfil : [item].filter (fun it => it.kept) = [] := by
        simp [List.filter, hkf]
      rw [hfil, List.append_nil]
      exact h3
    · intro pre it post hdec
      have hdec' : st.items ++ [item] = pre ++ it :: post := hdec
      rcases List.eq_nil_or_concat post with hpost | ⟨q, b, hpost⟩
      · subst hpost
        obtain ⟨hpre, hsing⟩ := List.append_inj' hdec' rfl
        have hit2 : item = it := by simpa using hsing
        subst hit2
        show item.kept = true ↔
          ∀ it', it' ∈ pre → (it'.strategy, it'.key) ≠ (item.strategy, item.key)
        rw [hkf, hpair]
        constructor
        · intro hc
          exact absurd hc (by simp)
        · intro hall
          exfalso
          obtain ⟨it0, hin0, hp0⟩ := (h1 sk).mp hm
          rw [hpre] at hin0
          exact hall it0 hin0 hp0
      · subst hpost
        have hdec2 : st.items ++ [item] = (pre ++ it :: q) ++ [b] := by
          rw [hdec']
          simp
        obtain ⟨hitems, hb⟩ := List.append_inj' hdec2 rfl
        exact h4 pre it q hitems
  · rw [if_neg hm]
    have hkt : item.kept = true := by
      rw [hkept]
      simp [hm]
    refine ⟨?_, ?_, ?_, ?_⟩
    · intro k
      show k ∈ st.seen ++ [sk] ↔ ∃ it, it ∈ st.items ++ [item] ∧ (it.strategy, it.key) = k
      rw [List.mem_append, List.mem_singleton]
      constructor
      · rintro (hk | rfl)
        · obtain ⟨it, hit, hp⟩ := (h1 k).mp hk
          exact ⟨it, List.mem_append_left _ hit, hp⟩
        · exact ⟨item, List.mem_append_right _ (by simp), hpair⟩
      · rintro ⟨it, hit, hp⟩
        rcases List.mem_append.mp hit with hin | hin
        · exact Or.inl ((h1 k).mpr ⟨it, hin, hp⟩)
        · have hit2 : it = item := by simpa using hin
          subst hit2
          rw [hpair] at hp
          exact Or.inr hp.symm
    · intro k
      show groupsLookup (groupsAppend st.groups sk item) k =
        (st.items ++ [item]).filter (fun it => decide ((it.strategy, it.key) = k))
      rw [groupsLookup_append, List.filter_append, h2 k]
      by_cases hk : sk = k
      · rw [if_pos hk]
        have hfil : [item].filter (fun it => decide ((it.strategy, it.key) = k)) = [item] := by
          simp [List.filter, hpair, hk]
        rw [hfil]
      · rw [if_neg hk]
        have hfil : [item].filter (fun it => decide ((it.strategy, it.key) = k)) = [] := by
          simp [List.filter, hpair, hk]
        rw [hfil, List.append_nil]
    · show st.merged ++ [upd] =
        ((st.items ++ [item]).filter (fun it => it.kept)).map (fun it => it.entry_text)
      rw [List.filter_append]
      have hfil : [item].filter (fun it => it.kept) = [item] := by
        simp [List.filter, hkt]
      rw [hfil, List.map_append, ← h3]
      simp [hent]
    · intro pre it post hdec
      have hdec' : st.items ++ [item] = pre ++ it :: post := hdec
      rcases List.eq_nil_or_concat post with hpost | ⟨q, b, hpost⟩
      · subst hpost
        obtain ⟨hpre, hsing⟩ := List.append_inj' hdec' rfl
        have hit2 : item = it := by simpa using hsing
        subst hit2
        show item.kept = true ↔
          ∀ it', it' ∈ pre → (it'.strategy, it'.key) ≠ (item.strategy, item.key)
        rw [hkt, hpair]
        constructor
        · intro _ it' hin' heq
          apply hm
          apply (h1 sk).mpr
          refine ⟨it', ?_, heq⟩
          rw [hpre]
          exact hin'
        · intro _
          rfl
      · subst hpost
        have hdec2 : st.items ++ [item] = (pre ++ it :: q) ++ [b] := by
          rw [hdec']
          simp
        obtain ⟨hitems, hb⟩ := List.append_inj' hdec2 rfl
        exact h4 pre it q hitems

/-- The per-record body `dedup_step` preserves the invariant. -/
theorem dedupInv_step (fp : List Char) (st : DedupState) (e : List Char)
    (h : DedupInv st) : DedupInv (dedup_step fp st e) :=
  dedupInv_step_general st
    (build_dedupe_key (append_fields e (split_filename_parts fp).1 (split_filename_parts fp).2))
    { kept := decide (build_dedupe_key (append_fields e (split_filename_parts fp).1
        (split_filename_parts fp).2) ∉ st.seen)
      file := pyBasename fp
      bib_id := get_bibtex_id (append_fields e (split_filename_parts fp).1
        (split_filename_parts fp).2)
      title_raw := orEmpty (truthy (get_field (append_fields e (split_filename_parts fp).1
        (split_filename_parts fp).2) (cs "title")))
      year := orEmpty (truthy (get_field (append_fields e (split_filename_parts fp).1
        (split_filename_parts fp).2) (cs "year")))
      source := orElseStr (get_field (append_fields e (split_filename_parts fp).1
        (split_filename_parts fp).2) (cs "source"))
        (orEmpty (truthy (split_filename_parts fp).2))
      actualSearch := (split_filename_parts fp).1
      strategy := (build_dedupe_key (append_fields e (split_filename_parts fp).1
        (split_filename_parts fp).2)).1
      key := (build_dedupe_key (append_fields e (split_filename_parts fp).1
        (split_filename_parts fp).2)).2
      entry_text := append_fields e (split_filename_parts fp).1 (split_filename_parts fp).2 }
    (append_fields e (split_filename_parts fp).1 (split_filename_parts fp).2)
    rfl rfl rfl rfl h

/-- Folding `dedup_step` over one file's records preserves the invariant. -/
theorem dedupInv_entries (fp : List Char) (es : List (List Char)) :
    ∀ st : DedupState, DedupInv st → DedupInv (es.foldl (dedup_step fp) st) := by
  induction es with
  | nil => intro st h; simpa using h
  | cons e r ih =>
    intro st h
    exact ih _ (dedupInv_step fp st e h)

/-- Folding the whole per-file loop over a list of files preserves the
invariant. -/
theorem dedupInv_files (files : List (List Char × List Char)) :
    ∀ st : DedupState, DedupInv st →
      DedupInv (files.foldl
        (fun st p => (extract_entries p.2).foldl (dedup_step p.1) st) st) := by
  induction files with
  | nil => intro st h; simpa using h
  | cons f r ih =>
    intro st h
    exact ih _ (dedupInv_entries f.1 (extract_entries f.2) st h)

/-- The dedup pass of `main` satisfies the invariant. -/
theorem dedupInv_process (files : List (List Char × List Char)) :
    DedupInv (process_files files) :=
  dedupInv_files files ⟨[], [], [], []⟩ dedupInv_nil

/-- C2: over any sequence of input files processed in order (records within a
file in source order), every dedup bucket is exactly the sublist of produced
items carrying that `(strategy, key)` pair in processing order; a non-empty
bucket's first (earliest-processed) item is marked kept, every later item in
the bucket is marked dropped, so the bucket contains exactly one kept item;
and the merged output is exactly the entry text of the kept items. -/
theorem c2_first_seen_wins (files : List (List Char × List Char)) :
    (∀ k, groupsLookup (process_files files).groups k =
        (process_files files).items.filter
          (fun it => decide ((it.strategy, it.key) = k))) ∧
    ((process_files files).merged =
        ((process_files files).items.filter (fun it => it.kept)).map
          (fun it => it.entry_text)) ∧
    (∀ k hd tl, groupsLookup (process_files files).groups k = hd :: tl →
        hd.kept = true ∧ (∀ it, it ∈ tl → it.kept = false) ∧
        (hd :: tl).countP (fun it => it.kept) = 1) := by
  obtain ⟨h1, h2, h3, h4⟩ := dedupInv_process files
  refine ⟨h2, h3, ?_⟩
  intro k hd tl hlk
  rw [h2 k] at hlk
  obtain ⟨l₁, l₂, hdecomp, hl1, hphd, hl2⟩ := filter_eq_cons_decomp _ _ _ _ hlk
  have hpair_hd : (hd.strategy, hd.key) = k := by simpa using hphd
  have hkept_hd : hd.kept = true := by
    rw [h4 l₁ hd l₂ hdecomp]
    intro it' hit' heq
    have hfalse := hl1 it' hit'
    rw [heq, hpair_hd] at hfalse
    simp at hfalse
  have htl : ∀ it, it ∈ tl → it.kept = false := by
    intro it hit
    have hmem2 : it ∈ l₂.filter (fun it => decide ((it.strategy, it.key) = k)) := by
      rw [hl2]
      exact hit
    have hmem : it ∈ l₂ := (List.mem_filter.mp hmem2).1
    have hp : decide ((it.strategy, it.key) = k) = true := (List.mem_filter.mp hmem2).2
    obtain ⟨s, t, hst⟩ := List.append_of_mem hmem
    have hdecomp2 : (process_files files).items = (l₁ ++ hd :: s) ++ it :: t := by
      rw [hdecomp, hst]
      simp
    have h4it := h4 (l₁ ++ hd :: s) it t hdecomp2
    cases hkk : it.kept with
    | false => rfl
    | true =>
      exfalso
      have hall := h4it.mp hkk
      apply hall hd (by simp)
      rw [hpair_hd]
      exact ((by simpa using hp : (it.strategy, it.key) = k)).symm
  refine ⟨hkept_hd, htl, ?_⟩
  have h0 : tl.countP (fun it => it.kept) = 0 :=
    List.countP_eq_zero.mpr (fun a ha => by rw [htl a ha]; simp)
  rw [List.countP_cons, h0, hkept_hd]
  simp

/-- Witness for C2 at the concrete two-file input `fC2`: the shared-DOI bucket
is the two produced items in processing order; the first is kept, the second
dropped, and the bucket's kept count is 1. -/
theorem c2_first_seen_wins_witness :
    ((process_files fC2).items.get ⟨0, by decide⟩).kept = true ∧
    (∀ it, it ∈ [(process_files fC2).items.get ⟨1, by decide⟩] → it.kept = false) ∧
    ((process_files fC2).items.get ⟨0, by decide⟩ ::
        [(process_files fC2).items.get ⟨1, by decide⟩]).countP (fun it => it.kept) = 1 :=
  (c2_first_seen_wins fC2).2.2 (cs "DOI", cs "10.1234/x")
    ((process_files fC2).items.get ⟨0, by decide⟩)
    [(process_files fC2).items.get ⟨1, by decide⟩] (by decide)
